import Mathlib

/-!
# Verification of the `fst-writer` body encoder

A shallow embedding, in Lean 4, of the core of the `fst-writer` Rust crate
(an FST waveform file writer): the LEB128 variable-length integer codec
(`src/io.rs`), the per-signal append-only chain store `SingleVecLists`
(`src/buffer.rs`), the `SignalBuffer` time/value change logic
(`src/buffer.rs`), the single-bit value encoder (`src/io.rs`), the hierarchy
writer's variable registration (`src/writer.rs`), and the seek-back length
patching of emitted blocks (`src/io.rs`).

Conventions of the embedding:
* Machine integers (`u8`, `u32`, `u64`, `usize`) are `Nat`, with an explicit
  `% 2 ^ 32` (resp. `2 ^ 64`) wherever the Rust source performs a narrowing
  cast or can overflow.  On the 64-bit targets the crate supports,
  `usize as u64` is the identity, so those casts are not marked.
* Byte strings are `List Nat` (each element a byte value).
* Rust panics (explicit `panic!`, slice-index panics) are modelled by the
  `panicked` constructor of `FstResult`; fallible functions return
  `Except FstWriteError`.
* Rust `while` loops whose termination is a consequence of data-structure
  invariants (the back-pointer walks of `SingleVecLists`) are embedded with
  an explicit fuel argument that is provably sufficient on every state the
  program constructs; an exhausted fuel returns the accumulator unchanged,
  which corresponds to a diverging Rust loop and is never reached in the
  theorems below.
* In-bounds slice reads `&data[a..b]` are modelled by `drop`/`take`, and
  in-bounds element reads by `List.getD`; the surrounding invariants ensure
  the accesses are in bounds wherever the Rust code would otherwise panic.
-/

/-! ## Errors (`src/lib.rs`)

The error enum of the crate, restricted to the variants the embedded code
constructs.  `Io` errors cannot arise in the pure embedding (all sinks are
in-memory byte vectors). -/

inductive FstWriteError : Type
  /-- `TimeDecrease(prev, attempted)` — monotonicity violation. -/
  | timeDecrease (prev attempted : Nat)
  /-- `InvalidSignalId(id)` — signal id out of range. -/
  | invalidSignalId (id : Nat)
  /-- `InvalidCharacter(c)` — value byte not in the 2-state/9-state alphabet. -/
  | invalidCharacter (c : Nat)
  deriving DecidableEq, Repr

/-- Result of an operation that can also panic (Rust `panic!` or an
out-of-bounds slice index).  A `panic` aborts the program; it is *not* an
`FstWriteError` returned to the caller. -/
inductive FstResult (α : Type) : Type
  | ok (value : α)
  | error (e : FstWriteError)
  | panicked
  deriving DecidableEq, Repr

/-! ## Variable-length integer codec

`write_variant_u64` from `src/io.rs` (lines 14–35) and `read_variant_u64`
from `src/buffer.rs` (lines 347–358). -/

/-- The `while value != 0` loop of `write_variant_u64`: emit 7 payload bits
per byte, low bits first, setting bit 7 on every byte except the last.  The
loop runs at most 10 iterations on any `u64` (the source asserts
`bytes.len() <= 10` right after it), so it is embedded structurally with a
fuel of 10; the fuel is exact on the whole `u64` domain. -/
def writeVariantLoop : Nat → Nat → List Nat
  | 0, _ => []
  | fuel + 1, value =>
    if value = 0 then []
    else
      let next := value / 128
      let mask : Nat := if next = 0 then 0 else 128
      (value % 128 ||| mask) :: writeVariantLoop fuel next

/-- `write_variant_u64` (`src/io.rs` lines 14-35), returning the emitted
bytes.  Values `<= 0x7f` are emitted as a single byte; larger values go
through `writeVariantLoop`. -/
def write_variant_u64 (value : Nat) : List Nat :=
  if value ≤ 0x7f then [value] else writeVariantLoop 10 value

/-- The `for (ii, byte) in input.iter().take(10).enumerate()` loop of
`read_variant_u64`: accumulate 7 bits per byte until a byte with bit 7
clear.  Falling off the end of the (already `take 10`-truncated) input
corresponds to the `unreachable!()` in the Rust source; the accumulator is
returned as a junk value in that case. -/
def readVariantLoop : List Nat → Nat → Nat → Nat × Nat
  | [], ii, res => (res, ii)
  | b :: rest, ii, res =>
    let value := b &&& 0x7f
    let res := res ||| (value <<< (7 * ii))
    if b &&& 0x80 = 0 then (res, ii + 1) else readVariantLoop rest (ii + 1) res

/-- `read_variant_u64` (`src/buffer.rs` lines 347-358): decode a LEB128
value from the first at-most-10 bytes of `input`, returning the value and
the number of bytes consumed. -/
def read_variant_u64 (input : List Nat) : Nat × Nat :=
  readVariantLoop (input.take 10) 0 0

theorem writeVariantLoop_zero (fuel : Nat) : writeVariantLoop fuel 0 = [] := by
  cases fuel <;> simp [writeVariantLoop]

theorem writeVariantLoop_ne_nil (fuel v : Nat) (hf : fuel ≠ 0) (hv : v ≠ 0) :
    writeVariantLoop fuel v ≠ [] := by
  cases fuel with
  | zero => exact absurd rfl hf
  | succ fuel => simp [writeVariantLoop, hv]

theorem writeVariantLoop_length_le (fuel : Nat) :
    ∀ v : Nat, (writeVariantLoop fuel v).length ≤ fuel := by
  induction fuel with
  | zero => intro v; simp [writeVariantLoop]
  | succ fuel ih =>
    intro v
    rw [writeVariantLoop]
    by_cases h0 : v = 0
    · simp [h0]
    · simp only [h0, if_false, List.length_cons]
      exact Nat.succ_le_succ (ih _)

/-- Bits below position `s` and a value shifted up by `s` combine disjointly:
`or` is addition there. -/
theorem or_shiftLeft_eq_add (a b s : Nat) (h : a < 2 ^ s) :
    a ||| (b <<< s) = a + b * 2 ^ s := by
  apply Nat.eq_of_testBit_eq
  intro i
  rw [Nat.testBit_or, Nat.testBit_shiftLeft]
  rw [show a + b * 2 ^ s = 2 ^ s * b + a by ring, Nat.testBit_mul_pow_two_add _ h]
  by_cases hi : s ≤ i
  · simp [hi, Nat.testBit_lt_two_pow
      (lt_of_lt_of_le h (Nat.pow_le_pow_right (by norm_num) hi)), Nat.not_lt.2 hi]
  · simp [hi, Nat.not_le.1 hi]

/-- The continuation mask on a 7-bit payload is plain addition. -/
theorem or_mask_eq_add (a : Nat) (h : a < 128) : a ||| 128 = a + 128 := by
  have := or_shiftLeft_eq_add a 1 7 (by omega)
  simpa using this

/-- A byte below 128 has bit 7 clear. -/
theorem low_byte_and_128 (a : Nat) (h : a < 128) : a &&& 128 = 0 := by
  have h7 := Nat.and_two_pow a 7
  simp [Nat.testBit_lt_two_pow (by omega : a < 2 ^ 7)] at h7
  exact h7

/-- A byte produced with the continuation mask has bit 7 set. -/
theorem masked_byte_and_128 (a : Nat) (h : a < 128) : (a + 128) &&& 128 = 128 := by
  rw [← or_mask_eq_add a h]
  have h7 := Nat.and_two_pow (a ||| 128) 7
  have ht : (a ||| 128).testBit 7 = true := by
    have : Nat.testBit 128 7 = true := by decide
    simp [Nat.testBit_or, this]
  norm_num [ht] at h7
  exact h7

/-- Masking with `0x7f` keeps the low 7 bits. -/
theorem and_127_eq_mod (a : Nat) : a &&& 127 = a % 128 := by
  have h := Nat.and_pow_two_sub_one_eq_mod a 7
  norm_num at h
  exact h

/-- Decoding the loop-emitted bytes of a positive value, from any accumulator
whose bits all sit below the current position, recovers the value shifted into
position - with any trailing bytes ignored. -/
theorem readVariantLoop_writeVariantLoop :
    ∀ fuel v : Nat, 0 < v → v < 2 ^ (7 * fuel) →
      ∀ (tail : List Nat) (ii res : Nat), res < 2 ^ (7 * ii) →
        readVariantLoop (writeVariantLoop fuel v ++ tail) ii res
          = (res + v * 2 ^ (7 * ii), ii + (writeVariantLoop fuel v).length) := by
  intro fuel
  induction fuel with
  | zero =>
    intro v hv hbound
    simp only [Nat.mul_zero, pow_zero, Nat.lt_one_iff] at hbound
    omega
  | succ fuel ih =>
    intro v hv hbound tail ii res hres
    have hvne : v ≠ 0 := Nat.pos_iff_ne_zero.mp hv
    rw [writeVariantLoop]
    simp only [hvne, if_false]
    by_cases hnext : v / 128 = 0
    · -- last byte: `v < 128`, no continuation mask
      have hv128 : v < 128 := by omega
      have hbyte : v % 128 ||| (if v / 128 = 0 then 0 else 128) = v := by
        simp [hnext, Nat.mod_eq_of_lt hv128]
      rw [hbyte, hnext, writeVariantLoop_zero]
      simp only [List.cons_append, List.nil_append, readVariantLoop,
        and_127_eq_mod, Nat.mod_eq_of_lt hv128, low_byte_and_128 v hv128,
        if_true, List.length_cons, List.length_nil]
      rw [or_shiftLeft_eq_add res v (7 * ii) hres]
    · -- continuation byte: mask 128 set, recurse on `v / 128`
      have hmod : v % 128 < 128 := Nat.mod_lt v (by norm_num)
      have hbyte : v % 128 ||| (if v / 128 = 0 then 0 else 128) = v % 128 + 128 := by
        simp [hnext, or_mask_eq_add _ hmod]
      rw [hbyte]
      simp only [List.cons_append, readVariantLoop, and_127_eq_mod]
      have hm : (v % 128 + 128) % 128 = v % 128 := by omega
      rw [hm, masked_byte_and_128 _ hmod]
      simp only [show (128 : Nat) ≠ 0 by norm_num, if_false]
      have hpow : (2 : Nat) ^ (7 * (ii + 1)) = 2 ^ (7 * ii) * 128 := by
        rw [Nat.mul_succ, pow_add]
        norm_num
      have hres2 : res ||| ((v % 128) <<< (7 * ii)) = res + v % 128 * 2 ^ (7 * ii) :=
        or_shiftLeft_eq_add res (v % 128) (7 * ii) hres
      rw [hres2]
      have hlt : res + v % 128 * 2 ^ (7 * ii) < 2 ^ (7 * (ii + 1)) := by
        rw [hpow]
        have : v % 128 * 2 ^ (7 * ii) ≤ 127 * 2 ^ (7 * ii) :=
          Nat.mul_le_mul_right _ (by omega)
        nlinarith [hres]
      have hdivbound : v / 128 < 2 ^ (7 * fuel) := by
        rw [Nat.div_lt_iff_lt_mul (by norm_num)]
        calc v < 2 ^ (7 * (fuel + 1)) := hbound
          _ = 2 ^ (7 * fuel) * 128 := by
            rw [Nat.mul_succ, pow_add]
            norm_num
      have hih := ih (v / 128) (Nat.pos_iff_ne_zero.mpr hnext) hdivbound tail (ii + 1)
        (res + v % 128 * 2 ^ (7 * ii)) hlt
      rw [show (writeVariantLoop fuel (v / 128)).append tail
        = writeVariantLoop fuel (v / 128) ++ tail from rfl, hih]
      have harith : res + v % 128 * 2 ^ (7 * ii) + v / 128 * 2 ^ (7 * (ii + 1))
          = res + v * 2 ^ (7 * ii) := by
        rw [hpow]
        have hdm : 128 * (v / 128) + v % 128 = v := Nat.div_add_mod v 128
        calc res + v % 128 * 2 ^ (7 * ii) + v / 128 * (2 ^ (7 * ii) * 128)
            = res + (128 * (v / 128) + v % 128) * 2 ^ (7 * ii) := by ring
          _ = res + v * 2 ^ (7 * ii) := by rw [hdm]
      rw [harith]
      simp [List.length_cons]
      omega

/-- Round-trip with an arbitrary suffix: decoding a stream that starts with
the encoding of `v` yields `v` and consumes exactly the encoded bytes. -/
theorem read_variant_u64_append (v : Nat) (rest : List Nat) (hv : v < 2 ^ 64) :
    read_variant_u64 (write_variant_u64 v ++ rest)
      = (v, (write_variant_u64 v).length) := by
  rw [read_variant_u64, write_variant_u64]
  by_cases h7 : v ≤ 0x7f
  · simp only [h7, if_true, List.cons_append, List.nil_append, List.take_cons,
      readVariantLoop, and_127_eq_mod, Nat.mod_eq_of_lt (show v < 128 by omega),
      low_byte_and_128 v (by omega), if_true, List.length_cons, List.length_nil]
    simp
  · have hlen : (writeVariantLoop 10 v).length ≤ 10 := writeVariantLoop_length_le 10 v
    have htake : (writeVariantLoop 10 v ++ rest).take 10
        = writeVariantLoop 10 v ++ rest.take (10 - (writeVariantLoop 10 v).length) := by
      rw [List.take_append_eq_append_take, List.take_of_length_le hlen]
    simp only [h7, if_false, htake]
    rw [readVariantLoop_writeVariantLoop 10 v (by omega)
      (lt_trans hv (by norm_num)) _ 0 0 (by norm_num)]
    simp

/-- Encoded length is at least one byte. -/
theorem write_variant_u64_length_pos (v : Nat) : 1 ≤ (write_variant_u64 v).length := by
  rw [write_variant_u64]
  by_cases h7 : v ≤ 0x7f
  · simp [h7]
  · simp only [h7, if_false]
    have := writeVariantLoop_ne_nil 10 v (by norm_num) (by omega)
    cases h : writeVariantLoop 10 v with
    | nil => exact absurd h this
    | cons a l => simp

/-- Encoded length is at most ten bytes for any `u64`. -/
theorem write_variant_u64_length_le (v : Nat) :
    (write_variant_u64 v).length ≤ 10 := by
  rw [write_variant_u64]
  by_cases h7 : v ≤ 0x7f
  · simp [h7]
  · simp only [h7, if_false]
    exact writeVariantLoop_length_le 10 v

/-- **C2.** For every `u64` value `v`, decoding the bytes produced by
`write_variant_u64 v` with `read_variant_u64` yields `(v, n)` where `n` is
exactly the number of bytes emitted; `n` lies between 1 and 10, and `v = 0`
is encoded as the single byte `0x00`. -/
theorem variant_u64_round_trip (v : Nat) (hv : v < 2 ^ 64) :
    read_variant_u64 (write_variant_u64 v) = (v, (write_variant_u64 v).length)
      ∧ 1 ≤ (write_variant_u64 v).length
      ∧ (write_variant_u64 v).length ≤ 10
      ∧ write_variant_u64 0 = [0] := by
  refine ⟨?_, write_variant_u64_length_pos v, write_variant_u64_length_le v, by decide⟩
  have h := read_variant_u64_append v [] hv
  simpa using h

/-- Witness for **C2** at `v = 300` (two-byte encoding `[0xac, 0x02]`). -/
theorem variant_u64_round_trip_witness :
    read_variant_u64 (write_variant_u64 300) = (300, (write_variant_u64 300).length)
      ∧ 1 ≤ (write_variant_u64 300).length
      ∧ (write_variant_u64 300).length ≤ 10
      ∧ write_variant_u64 0 = [0] :=
  variant_u64_round_trip 300 (by norm_num)

/-! ## Byte-slice helpers

List models of the Rust slice operations used by `SingleVecLists` and
`SignalBuffer`.  `listSlice` models an in-bounds read `&data[start..start+len]`,
`setSlice` an in-bounds write `out[start..start+len].copy_from_slice(src)`. -/

/-- `&data[start..start+len]`. -/
def listSlice (data : List Nat) (start len : Nat) : List Nat :=
  (data.drop start).take len

/-- `out[start..start+src.len()].copy_from_slice(src)`. -/
def setSlice (out : List Nat) (start : Nat) (src : List Nat) : List Nat :=
  out.take start ++ src ++ out.drop (start + src.length)

/-- `u32::to_le_bytes`. -/
def u32_le_bytes (v : Nat) : List Nat :=
  [v % 256, v / 256 % 256, v / 256 ^ 2 % 256, v / 256 ^ 3 % 256]

/-! ## The chain store `SingleVecLists` (`src/buffer.rs` lines 185–311)

Several append-only lists stored in one shared byte vector; `lists_last[i]`
holds `offset + 1` of list `i`'s most recent record (`0` = empty), each
record starts with a 4-byte little-endian back-pointer to the previous
record of the same list. -/

structure SingleVecLists : Type where
  /-- offset in bytes of the last list entry, plus one; `0` marks empty. -/
  lists_last : List Nat
  data : List Nat
  deriving DecidableEq, Repr

/-- `SingleVecLists::new` (lines 201–205). -/
def SingleVecLists.new (num_lists : Nat) : SingleVecLists :=
  { lists_last := List.replicate num_lists 0, data := [] }

/-- `SingleVecLists::append` (lines 207–225).  The new head
`self.data.len() as u32 + 1` narrows the vector length to 32 bits before the
increment wraps in `u32`. -/
def SingleVecLists.append (s : SingleVecLists) (list_id : Nat) (d : List Nat)
    (fixed_size : Option Nat) : SingleVecLists :=
  let back_pointer := s.lists_last.getD list_id 0
  let new_last := (s.data.length % 2 ^ 32 + 1) % 2 ^ 32
  { lists_last := s.lists_last.set list_id new_last
    data := s.data ++ u32_le_bytes back_pointer ++
      (match fixed_size with
        | some _ => d
        | none => write_variant_u64 d.length ++ d) }

/-- `SingleVecLists::read_back_pointer` (lines 279–282):
`u32::from_le_bytes` of `data[start..start+4]`. -/
def SingleVecLists.read_back_pointer (s : SingleVecLists) (start : Nat) : Nat :=
  s.data.getD start 0 + 256 * s.data.getD (start + 1) 0
    + 256 ^ 2 * s.data.getD (start + 2) 0 + 256 ^ 3 * s.data.getD (start + 3) 0

/-- The `while last > 0` walk of `SingleVecLists::list_len` (lines 284–310),
with explicit fuel (see the module comment). -/
def listLenLoop (s : SingleVecLists) (fixed_size : Option Nat) :
    Nat → Nat → Nat → Nat
  | 0, _, total => total
  | fuel + 1, last, total =>
    if last = 0 then total
    else
      let start := last - 1
      let next := s.read_back_pointer start
      match fixed_size with
      | some len => listLenLoop s fixed_size fuel next (total + len)
      | none =>
        let lenSkip := read_variant_u64 (s.data.drop (start + 4))
        listLenLoop s fixed_size fuel next (total + lenSkip.1)

/-- `SingleVecLists::list_len` (lines 284–310). -/
def SingleVecLists.list_len (s : SingleVecLists) (list_id : Nat)
    (fixed_size : Option Nat) : Nat :=
  let last := s.lists_last.getD list_id 0
  if last = 0 then 0 else listLenLoop s fixed_size (s.data.length + 1) last 0

/-- The `while last > 0` copy-back walk of `SingleVecLists::extract_list`
(lines 237–260), with explicit fuel.  Each record's body is copied at a
decreasing write cursor `remaining_len` so that `out` ends up in append
order. -/
def extractLoop (s : SingleVecLists) (fixed_size : Option Nat) :
    Nat → Nat → List Nat → Nat → List Nat
  | 0, _, out, _ => out
  | fuel + 1, last, out, remaining_len =>
    if last = 0 then out
    else
      let start := last - 1
      let next := s.read_back_pointer start
      match fixed_size with
      | some len =>
        let remaining := remaining_len - len
        let src := listSlice s.data (start + 4) len
        extractLoop s fixed_size fuel next (setSlice out remaining src) remaining
      | none =>
        let lenSkip := read_variant_u64 (s.data.drop (start + 4))
        let remaining := remaining_len - lenSkip.1
        let src := listSlice s.data (start + 4 + lenSkip.2) lenSkip.1
        extractLoop s fixed_size fuel next (setSlice out remaining src) remaining

/-- `SingleVecLists::extract_list` (lines 227–264). -/
def SingleVecLists.extract_list (s : SingleVecLists) (list_id : Nat)
    (fixed_size : Option Nat) : List Nat :=
  let last := s.lists_last.getD list_id 0
  if last = 0 then []
  else
    let len := s.list_len list_id fixed_size
    extractLoop s fixed_size (s.data.length + 1) last (List.replicate len 0) len

/-- `SingleVecLists::clear` (lines 266–271). -/
def SingleVecLists.clear (s : SingleVecLists) : SingleVecLists :=
  { lists_last := List.replicate s.lists_last.length 0, data := [] }

/-! ## The reference implementation `MultiVecLists`
(`src/buffer.rs` lines 313–344): one byte vector per list. -/

structure MultiVecLists : Type where
  lists : List (List Nat)
  deriving DecidableEq, Repr

/-- `MultiVecLists::new` (lines 321–324). -/
def MultiVecLists.new (num_lists : Nat) : MultiVecLists :=
  { lists := List.replicate num_lists [] }

/-- `MultiVecLists::append` (lines 326–328). -/
def MultiVecLists.append (m : MultiVecLists) (list_id : Nat) (d : List Nat)
    (_fixed_size : Option Nat) : MultiVecLists :=
  { lists := m.lists.set list_id (m.lists.getD list_id [] ++ d) }

/-- `MultiVecLists::extract_list` (lines 330–332). -/
def MultiVecLists.extract_list (m : MultiVecLists) (list_id : Nat)
    (_fixed_size : Option Nat) : List Nat :=
  m.lists.getD list_id []

/-- Run the same sequence of `append (list_id, bytes)` calls against a
`SingleVecLists`. -/
def runSingleAppends (s : SingleVecLists) (fixed_size : Option Nat) :
    List (Nat × List Nat) → SingleVecLists
  | [] => s
  | (i, d) :: ops => runSingleAppends (s.append i d fixed_size) fixed_size ops

/-- Run the same sequence of `append (list_id, bytes)` calls against the
reference `MultiVecLists`. -/
def runMultiAppends (m : MultiVecLists) (fixed_size : Option Nat) :
    List (Nat × List Nat) → MultiVecLists
  | [] => m
  | (i, d) :: ops => runMultiAppends (m.append i d fixed_size) fixed_size ops

/-! ## Chain representation invariant

`Chain fs data last items` says that walking the back-pointers from head
value `last` (an `offset + 1`, `0` = empty) through `data` visits well-formed
records whose bodies, in append order, are `items`. -/

/-- The bytes `SingleVecLists::append` adds to `data` for one record:
back-pointer, then the (optionally length-prefixed) body. -/
def entryBytes (fixed_size : Option Nat) (bp : Nat) (bs : List Nat) : List Nat :=
  u32_le_bytes bp ++
    (match fixed_size with
      | some _ => bs
      | none => write_variant_u64 bs.length ++ bs)

inductive Chain (fs : Option Nat) (data : List Nat) : Nat → List (List Nat) → Prop
  | nil : Chain fs data 0 []
  | snoc (last bp : Nat) (items : List (List Nat)) (bs : List Nat)
      (hpos : 0 < last)
      (hbp : bp < last)
      (hbp32 : bp < 2 ^ 32)
      (hbound : (last - 1) + (entryBytes fs bp bs).length ≤ data.length)
      (hbytes : data.drop (last - 1)
        = entryBytes fs bp bs ++ data.drop (last - 1 + (entryBytes fs bp bs).length))
      (hfixed : ∀ L, fs = some L → bs.length = L)
      (hrest : Chain fs data bp items) :
      Chain fs data last (items ++ [bs])

/-- The head of a chain never points past the end of `data`, and a chain has
no more records than `data` has bytes. -/
theorem Chain.last_le_and_length_le {fs : Option Nat} {data : List Nat}
    {last : Nat} {items : List (List Nat)} (h : Chain fs data last items) :
    last ≤ data.length ∧ items.length ≤ last := by
  induction h with
  | nil => simp
  | snoc last bp items bs hpos hbp hbp32 hbound hbytes hfixed hrest ih =>
    have hlen : 4 ≤ (entryBytes fs bp bs).length := by
      simp [entryBytes, u32_le_bytes]
    constructor
    · omega
    · simp only [List.length_append, List.length_cons, List.length_nil]
      omega

/-- Chains survive extension of the data vector: all reads stay below the
old length. -/
theorem Chain.mono {fs : Option Nat} {data : List Nat} {last : Nat}
    {items : List (List Nat)} (h : Chain fs data last items) (ext : List Nat) :
    Chain fs (data ++ ext) last items := by
  induction h with
  | nil => exact Chain.nil
  | snoc last bp items bs hpos hbp hbp32 hbound hbytes hfixed hrest ih =>
    refine Chain.snoc last bp items bs hpos hbp hbp32 ?_ ?_ hfixed ih
    · simp only [List.length_append]
      omega
    · have hlen : 4 ≤ (entryBytes fs bp bs).length := by
        simp [entryBytes, u32_le_bytes]
      have h1 : (data ++ ext).drop (last - 1) = data.drop (last - 1) ++ ext := by
        rw [List.drop_append_eq_append_drop,
          show last - 1 - data.length = 0 by omega, List.drop_zero]
      have h2 : (data ++ ext).drop (last - 1 + (entryBytes fs bp bs).length)
          = data.drop (last - 1 + (entryBytes fs bp bs).length) ++ ext := by
        rw [List.drop_append_eq_append_drop,
          show last - 1 + (entryBytes fs bp bs).length - data.length = 0 by omega,
          List.drop_zero]
      rw [h1, h2, hbytes, List.append_assoc]

/-- A zero head value carries an empty chain. -/
theorem Chain.eq_nil_of_zero {fs : Option Nat} {data : List Nat}
    {items : List (List Nat)} (h : Chain fs data 0 items) : items = [] := by
  cases h with
  | nil => rfl
  | snoc last bp items bs hpos => omega

/-- Reading the four back-pointer bytes of a chain record recomposes the
stored head value. -/
theorem read_back_pointer_of_entry (s : SingleVecLists) (fs : Option Nat)
    (p bp : Nat) (bs : List Nat) (hbp32 : bp < 2 ^ 32)
    (hbytes : s.data.drop p
      = entryBytes fs bp bs ++ s.data.drop (p + (entryBytes fs bp bs).length)) :
    s.read_back_pointer p = bp := by
  have hget : ∀ i, i < 4 → s.data.getD (p + i) 0 = (u32_le_bytes bp).getD i 0 := by
    intro i hi
    have hd := congrArg (fun l => l[i]?) hbytes
    simp only [List.getElem?_drop] at hd
    rw [List.getD_eq_getElem?_getD, List.getD_eq_getElem?_getD, hd,
      List.getElem?_append]
    have hilt : i < (entryBytes fs bp bs).length := by
      have : 4 ≤ (entryBytes fs bp bs).length := by simp [entryBytes, u32_le_bytes]
      omega
    simp only [hilt, if_true]
    rw [entryBytes.eq_def, List.getElem?_append]
    simp [show i < (u32_le_bytes bp).length by simp [u32_le_bytes]; omega]
  have h0 := hget 0 (by norm_num)
  have h1 := hget 1 (by norm_num)
  have h2 := hget 2 (by norm_num)
  have h3 := hget 3 (by norm_num)
  rw [show p + 0 = p by omega] at h0
  rw [SingleVecLists.read_back_pointer, h0, h1, h2, h3]
  simp only [u32_le_bytes, List.getD_cons_zero, List.getD_cons_succ]
  omega

/-- The body bytes of a variable-size chain record: the length prefix decodes
to the body length, and the body itself sits right after it. -/
theorem entry_src_var (s : SingleVecLists) (p bp : Nat) (bs : List Nat)
    (hlen64 : bs.length < 2 ^ 64)
    (hbytes : s.data.drop p
      = entryBytes none bp bs ++ s.data.drop (p + (entryBytes none bp bs).length)) :
    read_variant_u64 (s.data.drop (p + 4))
        = (bs.length, (write_variant_u64 bs.length).length)
      ∧ listSlice s.data (p + 4 + (write_variant_u64 bs.length).length) bs.length
        = bs := by
  have hdrop4 : s.data.drop (p + 4)
      = write_variant_u64 bs.length
        ++ (bs ++ s.data.drop (p + (entryBytes none bp bs).length)) := by
    have hcast := congrArg (List.drop 4) hbytes
    rw [List.drop_drop] at hcast
    rw [hcast, List.drop_append_eq_append_drop]
    have h4 : 4 ≤ (entryBytes none bp bs).length := by simp [entryBytes, u32_le_bytes]
    rw [show 4 - (entryBytes none bp bs).length = 0 by omega, List.drop_zero]
    simp [entryBytes, u32_le_bytes]
  constructor
  · rw [hdrop4]
    exact read_variant_u64_append bs.length _ hlen64
  · rw [listSlice, ← List.drop_drop, hdrop4, List.drop_left, List.take_left]

/-- The body bytes of a fixed-size chain record sit right after the
back-pointer. -/
theorem entry_src_fixed (s : SingleVecLists) (p bp L : Nat) (bs : List Nat)
    (hL : bs.length = L)
    (hbytes : s.data.drop p
      = entryBytes (some L) bp bs
        ++ s.data.drop (p + (entryBytes (some L) bp bs).length)) :
    listSlice s.data (p + 4) L = bs := by
  have hdrop4 : s.data.drop (p + 4)
      = bs ++ s.data.drop (p + (entryBytes (some L) bp bs).length) := by
    have hcast := congrArg (List.drop 4) hbytes
    rw [List.drop_drop] at hcast
    rw [hcast, List.drop_append_eq_append_drop]
    have h4 : 4 ≤ (entryBytes (some L) bp bs).length := by
      simp [entryBytes, u32_le_bytes]
    rw [show 4 - (entryBytes (some L) bp bs).length = 0 by omega, List.drop_zero]
    simp [entryBytes, u32_le_bytes]
  rw [listSlice, hdrop4, ← hL, List.take_left]

/-- Writing an empty slice changes nothing. -/
theorem setSlice_nil (out : List Nat) (p : Nat) : setSlice out p [] = out := by
  simp [setSlice]

/-- An in-bounds slice write preserves the buffer length. -/
theorem setSlice_length (out src : List Nat) (p : Nat)
    (h : p + src.length ≤ out.length) :
    (setSlice out p src).length = out.length := by
  simp [setSlice]
  omega

/-- Two adjacent in-bounds slice writes fuse into one. -/
theorem setSlice_setSlice (out a b : List Nat) (p : Nat)
    (h : p + a.length + b.length ≤ out.length) :
    setSlice (setSlice out (p + a.length) b) p a = setSlice out p (a ++ b) := by
  have hXlen : (out.take (p + a.length)).length = p + a.length := by
    rw [List.length_take]
    omega
  rw [setSlice, setSlice, setSlice]
  have htake : (out.take (p + a.length) ++ b ++ out.drop (p + a.length + b.length)).take p
      = out.take p := by
    rw [List.append_assoc, List.take_append_of_le_length (by omega : p ≤ (out.take (p + a.length)).length),
      List.take_take, min_eq_left (by omega)]
  have hdrop : (out.take (p + a.length) ++ b ++ out.drop (p + a.length + b.length)).drop
        (p + a.length)
      = b ++ out.drop (p + a.length + b.length) := by
    rw [List.append_assoc]
    have hdl := List.drop_left (out.take (p + a.length))
      (b ++ out.drop (p + a.length + b.length))
    rwa [hXlen] at hdl
  rw [htake, hdrop, List.length_append]
  rw [show p + (a.length + b.length) = p + a.length + b.length by omega]
  simp [List.append_assoc]

/-- Walking a chain with the length loop accumulates the total body length. -/
theorem listLenLoop_chain (s : SingleVecLists) (fs : Option Nat)
    (hdata : s.data.length < 2 ^ 64) :
    ∀ {last : Nat} {items : List (List Nat)}, Chain fs s.data last items →
      ∀ (fuel total : Nat), items.length < fuel →
        listLenLoop s fs fuel last total = total + items.flatten.length := by
  intro last items h
  induction h with
  | nil =>
    intro fuel total hfuel
    cases fuel with
    | zero => omega
    | succ fuel => simp [listLenLoop]
  | snoc last bp items bs hpos hbp hbp32 hbound hbytes hfixed hrest ih =>
    intro fuel total hfuel
    cases fuel with
    | zero => simp at hfuel
    | succ fuel =>
      rw [listLenLoop]
      simp only [show ¬(last = 0) by omega, if_false]
      have hbplast := read_back_pointer_of_entry s fs (last - 1) bp bs hbp32 hbytes
      have hfuel' : items.length < fuel := by
        simp only [List.length_append, List.length_cons, List.length_nil] at hfuel
        omega
      have hflat : (items ++ [bs]).flatten.length
          = items.flatten.length + bs.length := by
        simp
      match fs, hbytes, hfixed with
      | none, hbytes, hfixed =>
        have hbs64 : bs.length < 2 ^ 64 := by
          have : bs.length ≤ (entryBytes none bp bs).length := by
            simp [entryBytes, u32_le_bytes]
            omega
          omega
        have hvar := entry_src_var s (last - 1) bp bs hbs64 hbytes
        simp only [hbplast, hvar.1]
        rw [ih fuel (total + bs.length) hfuel', hflat]
        omega
      | some L, hbytes, hfixed =>
        simp only [hbplast]
        rw [ih fuel (total + L) hfuel', hflat, hfixed L rfl]
        omega

/-- Walking a chain with the copy-back loop writes the concatenated bodies,
in append order, ending exactly at the write cursor's final position. -/
theorem extractLoop_chain (s : SingleVecLists) (fs : Option Nat)
    (hdata : s.data.length < 2 ^ 64) :
    ∀ {last : Nat} {items : List (List Nat)}, Chain fs s.data last items →
      ∀ (fuel : Nat) (out : List Nat) (remaining : Nat),
        items.length < fuel →
        items.flatten.length ≤ remaining → remaining ≤ out.length →
        extractLoop s fs fuel last out remaining
          = setSlice out (remaining - items.flatten.length) items.flatten := by
  intro last items h
  induction h with
  | nil =>
    intro fuel out remaining hfuel hflat hrem
    cases fuel with
    | zero => omega
    | succ fuel =>
      simp [extractLoop, setSlice_nil]
  | snoc last bp items bs hpos hbp hbp32 hbound hbytes hfixed hrest ih =>
    intro fuel out remaining hfuel hflat hrem
    cases fuel with
    | zero => simp at hfuel
    | succ fuel =>
      rw [extractLoop]
      simp only [show ¬(last = 0) by omega, if_false]
      have hbplast := read_back_pointer_of_entry s fs (last - 1) bp bs hbp32 hbytes
      have hfuel' : items.length < fuel := by
        simp only [List.length_append, List.length_cons, List.length_nil] at hfuel
        omega
      have hflatlen : (items ++ [bs]).flatten.length
          = items.flatten.length + bs.length := by
        simp
      rw [hflatlen] at hflat
      have hcompose : setSlice (setSlice out (remaining - bs.length) bs)
            (remaining - bs.length - items.flatten.length) items.flatten
          = setSlice out (remaining - (items ++ [bs]).flatten.length)
            (items ++ [bs]).flatten := by
        have hp := setSlice_setSlice out items.flatten bs
          (remaining - bs.length - items.flatten.length)
          (by omega)
        rw [show remaining - bs.length - items.flatten.length + items.flatten.length
          = remaining - bs.length by omega] at hp
        rw [hp, hflatlen]
        rw [show remaining - (items.flatten.length + bs.length)
          = remaining - bs.length - items.flatten.length by omega]
        simp
      match fs, hbytes, hfixed with
      | none, hbytes, hfixed =>
        have hbs64 : bs.length < 2 ^ 64 := by
          have : bs.length ≤ (entryBytes none bp bs).length := by
            simp [entryBytes, u32_le_bytes]
            omega
          omega
        have hvar := entry_src_var s (last - 1) bp bs hbs64 hbytes
        simp only [hbplast, hvar.1, hvar.2]
        rw [ih fuel _ _ hfuel' (by omega)
          (by rw [setSlice_length out bs _ (by omega)]; omega)]
        exact hcompose
      | some L, hbytes, hfixed =>
        have hbsL : bs.length = L := hfixed L rfl
        have hsrc := entry_src_fixed s (last - 1) bp L bs hbsL hbytes
        subst hbsL
        simp only [hbplast, hsrc]
        rw [ih fuel _ _ hfuel' (by omega)
          (by rw [setSlice_length out bs _ (by omega)]; omega)]
        exact hcompose

/-- `list_len` of a chained list is the total length of its bodies. -/
theorem list_len_chain (s : SingleVecLists) (fs : Option Nat) (i : Nat)
    {items : List (List Nat)} (hdata : s.data.length < 2 ^ 64)
    (h : Chain fs s.data (s.lists_last.getD i 0) items) :
    s.list_len i fs = items.flatten.length := by
  rw [SingleVecLists.list_len]
  by_cases hz : s.lists_last.getD i 0 = 0
  · rw [hz] at h
    simp only [hz, if_true]
    rw [h.eq_nil_of_zero]
    rfl
  · simp only [hz, if_false]
    have hfuel : items.length < s.data.length + 1 := by
      have hle := h.last_le_and_length_le
      omega
    rw [listLenLoop_chain s fs hdata h _ 0 hfuel]
    omega

/-- `extract_list` of a chained list returns the concatenation of its bodies
in append order. -/
theorem extract_list_chain (s : SingleVecLists) (fs : Option Nat) (i : Nat)
    {items : List (List Nat)} (hdata : s.data.length < 2 ^ 64)
    (h : Chain fs s.data (s.lists_last.getD i 0) items) :
    s.extract_list i fs = items.flatten := by
  rw [SingleVecLists.extract_list]
  by_cases hz : s.lists_last.getD i 0 = 0
  · rw [hz] at h
    simp only [hz, if_true]
    rw [h.eq_nil_of_zero]
    rfl
  · simp only [hz, if_false]
    have hfuel : items.length < s.data.length + 1 := by
      have hle := h.last_le_and_length_le
      omega
    rw [list_len_chain s fs i hdata h]
    rw [extractLoop_chain s fs hdata h _ _ _ hfuel (le_refl _)
      (by simp)]
    rw [Nat.sub_self, setSlice]
    simp

/-- The per-list record sequences tracked against a `SingleVecLists` state:
`lists_last.getD i` heads a chain holding exactly the records appended to
list `i` so far. -/
def ChainsRel (fs : Option Nat) (s : SingleVecLists)
    (es : List (List (List Nat))) : Prop :=
  s.lists_last.length = es.length ∧
  ∀ i, i < es.length → Chain fs s.data (s.lists_last.getD i 0) (es.getD i [])

/-- One `append` call extends the tracked record sequence of its list,
provided the shared vector has not yet reached `2^32 - 1` bytes. -/
theorem ChainsRel.append {fs : Option Nat} {s : SingleVecLists}
    {es : List (List (List Nat))} (h : ChainsRel fs s es) (i : Nat) (d : List Nat)
    (hi : i < es.length) (hsize : s.data.length < 2 ^ 32 - 1)
    (hd : ∀ L, fs = some L → d.length = L) :
    ChainsRel fs (s.append i d fs) (es.set i (es.getD i [] ++ [d])) := by
  obtain ⟨hlen, hchains⟩ := h
  have hilast : i < s.lists_last.length := by omega
  have hstore : (s.data.length % 2 ^ 32 + 1) % 2 ^ 32 = s.data.length + 1 := by
    have h32 : s.data.length % 2 ^ 32 = s.data.length := Nat.mod_eq_of_lt (by omega)
    rw [h32]
    exact Nat.mod_eq_of_lt (by omega)
  have hdata' : (s.append i d fs).data
      = s.data ++ entryBytes fs (s.lists_last.getD i 0) d := by
    rw [SingleVecLists.append.eq_def, entryBytes.eq_def]
    simp [List.append_assoc]
  constructor
  · rw [SingleVecLists.append.eq_def]
    simp [hlen]
  · intro j hj
    have hj' : j < es.length := by simpa using hj
    by_cases hij : j = i
    · subst hij
      have hset : ((s.append j d fs).lists_last).getD j 0 = s.data.length + 1 := by
        rw [SingleVecLists.append.eq_def]
        simp only [List.getD_eq_getElem?_getD, List.getElem?_set_self hilast,
          Option.getD_some]
        exact hstore
      have hsete : (es.set j (es.getD j [] ++ [d])).getD j []
          = es.getD j [] ++ [d] := by
        simp [List.getD_eq_getElem?_getD, List.getElem?_set_self hi]
      rw [hset, hsete, hdata']
      have hold := hchains j hj'
      have holdle := hold.last_le_and_length_le
      refine Chain.snoc (s.data.length + 1) (s.lists_last.getD j 0) _ d
        (by omega) (by omega) (by omega) ?_ ?_ hd (hold.mono _)
      · simp only [Nat.add_sub_cancel, List.length_append]
        omega
      · simp only [Nat.add_sub_cancel]
        rw [List.drop_left]
        have : (s.data ++ entryBytes fs (s.lists_last.getD j 0) d).drop
            (s.data.length + (entryBytes fs (s.lists_last.getD j 0) d).length) = [] := by
          apply List.drop_eq_nil_of_le
          simp
        rw [this, List.append_nil]
    · have hset : ((s.append i d fs).lists_last).getD j 0
          = s.lists_last.getD j 0 := by
        rw [SingleVecLists.append.eq_def]
        simp [List.getD_eq_getElem?_getD, List.getElem?_set_ne (by omega : i ≠ j)]
      have hsete : (es.set i (es.getD i [] ++ [d])).getD j [] = es.getD j [] := by
        simp [List.getD_eq_getElem?_getD, List.getElem?_set_ne (by omega : i ≠ j)]
      rw [hset, hsete, hdata']
      exact (hchains j hj').mono _

/-- The concatenation of the bytes appended to list `i`, in append order. -/
def concatOf : List (Nat × List Nat) → Nat → List Nat
  | [], _ => []
  | (j, d) :: ops, i => if j = i then d ++ concatOf ops i else concatOf ops i

/-- The shared data vector only grows under a sequence of appends. -/
theorem runSingleAppends_data_le (fs : Option Nat) :
    ∀ (ops : List (Nat × List Nat)) (s : SingleVecLists),
      s.data.length ≤ (runSingleAppends s fs ops).data.length := by
  intro ops
  induction ops with
  | nil => intro s; simp [runSingleAppends]
  | cons op ops ih =>
    intro s
    obtain ⟨i, d⟩ := op
    rw [runSingleAppends]
    refine le_trans ?_ (ih (s.append i d fs))
    rw [SingleVecLists.append.eq_def]
    simp

/-- Appending never shrinks the tracked list count. -/
theorem runSingleAppends_lists_length (fs : Option Nat) :
    ∀ (ops : List (Nat × List Nat)) (s : SingleVecLists),
      (runSingleAppends s fs ops).lists_last.length = s.lists_last.length := by
  intro ops
  induction ops with
  | nil => intro s; simp [runSingleAppends]
  | cons op ops ih =>
    intro s
    obtain ⟨i, d⟩ := op
    rw [runSingleAppends, ih]
    rw [SingleVecLists.append.eq_def]
    simp

/-- Maintaining the chain relation across a whole append sequence, as long as
the final data size stays below `2^32 - 1` bytes. -/
theorem runSingleAppends_rel (fs : Option Nat) :
    ∀ (ops : List (Nat × List Nat)) (s : SingleVecLists)
      (es : List (List (List Nat))),
      ChainsRel fs s es →
      (∀ op ∈ ops, op.1 < es.length ∧ ∀ L, fs = some L → op.2.length = L) →
      (runSingleAppends s fs ops).data.length < 2 ^ 32 - 1 →
      ∃ es', ChainsRel fs (runSingleAppends s fs ops) es'
        ∧ es'.length = es.length
        ∧ ∀ i, i < es.length →
            (es'.getD i []).flatten = (es.getD i []).flatten ++ concatOf ops i := by
  intro ops
  induction ops with
  | nil =>
    intro s es hrel hops hsize
    exact ⟨es, hrel, rfl, fun i _ => by simp [concatOf]⟩
  | cons op ops ih =>
    intro s es hrel hops hsize
    obtain ⟨i, d⟩ := op
    have hop := hops (i, d) (by simp)
    have hsize0 : s.data.length < 2 ^ 32 - 1 := by
      have h1 := runSingleAppends_data_le fs ops (s.append i d fs)
      have h2 : s.data.length ≤ (s.append i d fs).data.length := by
        rw [SingleVecLists.append.eq_def]
        simp
      rw [runSingleAppends] at hsize
      omega
    have hstep := hrel.append i d hop.1 hsize0 hop.2
    rw [runSingleAppends]
    have hops' : ∀ op ∈ ops, op.1 < (es.set i (es.getD i [] ++ [d])).length
        ∧ ∀ L, fs = some L → op.2.length = L := by
      intro op hop'
      have := hops op (by simp [hop'])
      simpa using this
    rw [runSingleAppends] at hsize
    obtain ⟨es', hrel', hlen', hflat'⟩ := ih (s.append i d fs) _ hstep hops' hsize
    refine ⟨es', hrel', by simpa using hlen', ?_⟩
    intro j hj
    have hj2 : j < (es.set i (es.getD i [] ++ [d])).length := by simpa using hj
    rw [hflat' j hj2]
    by_cases hij : i = j
    · subst hij
      have : (es.set i (es.getD i [] ++ [d])).getD i [] = es.getD i [] ++ [d] := by
        simp [List.getD_eq_getElem?_getD, List.getElem?_set_self (by omega : i < es.length)]
      rw [this, concatOf]
      simp
    · have : (es.set i (es.getD i [] ++ [d])).getD j [] = es.getD j [] := by
        simp [List.getD_eq_getElem?_getD, List.getElem?_set_ne (by omega : i ≠ j)]
      rw [this, concatOf]
      simp [hij]

/-- The reference implementation accumulates exactly the concatenation of the
appended byte strings, per list. -/
theorem runMultiAppends_getD (fs : Option Nat) :
    ∀ (ops : List (Nat × List Nat)) (m : MultiVecLists) (i : Nat),
      (∀ op ∈ ops, op.1 < m.lists.length) →
      (runMultiAppends m fs ops).lists.getD i []
        = m.lists.getD i [] ++ concatOf ops i := by
  intro ops
  induction ops with
  | nil => intro m i _; simp [runMultiAppends, concatOf]
  | cons op ops ih =>
    intro m i hops
    obtain ⟨j, d⟩ := op
    have hj : j < m.lists.length := hops (j, d) (by simp)
    rw [runMultiAppends]
    have hlen : (m.append j d fs).lists.length = m.lists.length := by
      rw [MultiVecLists.append]
      simp
    rw [ih (m.append j d fs) i (by intro op hop; rw [hlen]; exact hops op (by simp [hop]))]
    rw [MultiVecLists.append, concatOf]
    by_cases hij : j = i
    · subst hij
      simp [List.getD_eq_getElem?_getD, List.getElem?_set_self hj]
    · simp [List.getD_eq_getElem?_getD, List.getElem?_set_ne hij, hij]

/-- **C1 (amended).** For every sequence of `append (list_id, bytes)` calls on
a `SingleVecLists` with `n` lists — variable-length (`fixed_size = none`) or
fixed-length records of any length in `[1, 256]` — and for every list id,
`extract_list` returns exactly the concatenation of the bytes appended to
that list in append order, byte-identical to the reference `MultiVecLists`,
*provided* the shared data vector stays below `2^32 - 1` bytes (the stored
`offset + 1` heads are `u32`-truncated, see C10). -/
theorem single_vec_lists_matches_reference (n : Nat) (fs : Option Nat)
    (ops : List (Nat × List Nat)) (i : Nat) (hi : i < n)
    (hfs : ∀ L, fs = some L → 1 ≤ L ∧ L ≤ 256)
    (hops : ∀ op ∈ ops, op.1 < n ∧ ∀ L, fs = some L → op.2.length = L)
    (hsize : (runSingleAppends (SingleVecLists.new n) fs ops).data.length
      < 2 ^ 32 - 1) :
    (runSingleAppends (SingleVecLists.new n) fs ops).extract_list i fs
        = (runMultiAppends (MultiVecLists.new n) fs ops).extract_list i fs
      ∧ (runSingleAppends (SingleVecLists.new n) fs ops).extract_list i fs
        = concatOf ops i := by
  have hrel0 : ChainsRel fs (SingleVecLists.new n) (List.replicate n []) := by
    constructor
    · simp [SingleVecLists.new]
    · intro j hj
      rw [SingleVecLists.new]
      have h1 : (List.replicate n (0 : Nat)).getD j 0 = 0 := by
        simp at hj
        simp [List.getD_eq_getElem?_getD, List.getElem?_replicate, hj]
      have h2 : (List.replicate n ([] : List (List Nat))).getD j [] = [] := by
        simp at hj
        simp [List.getD_eq_getElem?_getD, List.getElem?_replicate, hj]
      rw [h1, h2]
      exact Chain.nil
  have hops' : ∀ op ∈ ops, op.1 < (List.replicate n ([] : List (List Nat))).length
      ∧ ∀ L, fs = some L → op.2.length = L := by
    intro op hop
    have := hops op hop
    simpa using this
  obtain ⟨es', hrel', hlen', hflat'⟩ :=
    runSingleAppends_rel fs ops (SingleVecLists.new n) _ hrel0 hops' hsize
  have hin : i < (List.replicate n ([] : List (List Nat))).length := by simpa using hi
  have hlen2 : es'.length = n := by simpa using hlen'
  have hchain := hrel'.2 i (by omega)
  have hX : (es'.getD i []).flatten = concatOf ops i := by
    have h := hflat' i hin
    have hz : ((List.replicate n ([] : List (List Nat))).getD i []) = [] := by
      simp [List.getD_eq_getElem?_getD, List.getElem?_replicate, hi]
    rw [hz] at h
    simpa using h
  have hdata64 : (runSingleAppends (SingleVecLists.new n) fs ops).data.length
      < 2 ^ 64 := by omega
  have hextract := extract_list_chain _ fs i hdata64 hchain
  have hmulti : (runMultiAppends (MultiVecLists.new n) fs ops).extract_list i fs
      = concatOf ops i := by
    rw [MultiVecLists.extract_list]
    rw [runMultiAppends_getD fs ops (MultiVecLists.new n) i
      (by intro op hop; rw [MultiVecLists.new]; simpa using (hops op hop).1)]
    rw [MultiVecLists.new]
    simp [List.getD_eq_getElem?_getD, List.getElem?_replicate, hi]
  exact ⟨by rw [hextract, hX, hmulti], by rw [hextract, hX]⟩

/-- Witness for **C1 (amended)** on a concrete three-append run with two
lists. -/
theorem single_vec_lists_matches_reference_witness :
    (runSingleAppends (SingleVecLists.new 2) none
          [(0, [1, 2]), (1, [3]), (0, [4])]).extract_list 0 none
        = (runMultiAppends (MultiVecLists.new 2) none
          [(0, [1, 2]), (1, [3]), (0, [4])]).extract_list 0 none
      ∧ (runSingleAppends (SingleVecLists.new 2) none
          [(0, [1, 2]), (1, [3]), (0, [4])]).extract_list 0 none
        = concatOf [(0, [1, 2]), (1, [3]), (0, [4])] 0 :=
  single_vec_lists_matches_reference 2 none [(0, [1, 2]), (1, [3]), (0, [4])] 0
    (by norm_num) (by simp)
    (by
      intro op hop
      simp only [List.mem_cons, List.not_mem_nil, or_false] at hop
      rcases hop with rfl | rfl | rfl <;> exact ⟨by norm_num, by simp⟩)
    (by decide)

/-- Projection: one `append` call updates the list-head array. -/
theorem append_lists_last (s : SingleVecLists) (i : Nat) (d : List Nat)
    (fs : Option Nat) :
    (s.append i d fs).lists_last
      = s.lists_last.set i ((s.data.length % 2 ^ 32 + 1) % 2 ^ 32) := by
  rw [SingleVecLists.append.eq_def]

/-- Projection: one `append` call extends the shared data vector by one
record. -/
theorem append_data (s : SingleVecLists) (i : Nat) (d : List Nat)
    (fs : Option Nat) :
    (s.append i d fs).data
      = s.data ++ entryBytes fs (s.lists_last.getD i 0) d := by
  rw [SingleVecLists.append.eq_def, entryBytes.eq_def]
  simp [List.append_assoc]

/-- Length of a variable-size record. -/
theorem entryBytes_length_var (bp : Nat) (bs : List Nat) :
    (entryBytes none bp bs).length
      = 4 + (write_variant_u64 bs.length).length + bs.length := by
  simp [entryBytes, u32_le_bytes]
  omega

/-- The state after appending one `2^32 - 9`-byte record and then `[42]` to
list 0 of a one-list store: the shared vector reaches `2^32` bytes after the
first append, so the second record's stored head `offset + 1` wraps back
to `1`. -/
def wrapState : SingleVecLists :=
  ((SingleVecLists.new 1).append 0 (List.replicate (2 ^ 32 - 9) 7) none).append
    0 [42] none

theorem wrap_variant : write_variant_u64 (2 ^ 32 - 9) = [247, 255, 255, 255, 15] := by
  rw [show (2 : Nat) ^ 32 - 9 = 4294967287 by norm_num]
  decide

/-- After the first giant append the shared vector holds exactly `2^32`
bytes. -/
theorem wrap_first_data_length :
    ((SingleVecLists.new 1).append 0 (List.replicate (2 ^ 32 - 9) 7) none).data.length
      = 2 ^ 32 := by
  rw [append_data, List.length_append, entryBytes_length_var, List.length_replicate,
    wrap_variant]
  simp [SingleVecLists.new]

theorem wrap_first_lists_last :
    ((SingleVecLists.new 1).append 0 (List.replicate (2 ^ 32 - 9) 7) none).lists_last
      = [1] := by
  rw [append_lists_last]
  rw [SingleVecLists.new]
  norm_num

theorem wrap_lists_last : wrapState.lists_last = [1] := by
  rw [wrapState, append_lists_last, wrap_first_lists_last, wrap_first_data_length]
  norm_num

/-- The wrapped state's data: the giant first record followed by the small
second record whose back-pointer is `1`. -/
theorem wrap_data : wrapState.data
    = entryBytes none 0 (List.replicate (2 ^ 32 - 9) 7) ++ [1, 0, 0, 0, 1, 42] := by
  have hnew : (SingleVecLists.new 1).lists_last.getD 0 0 = 0 := by decide
  have hnewdata : (SingleVecLists.new 1).data = [] := rfl
  have h1 : ([1] : List Nat).getD 0 0 = 1 := by decide
  have h2 : entryBytes none 1 [42] = [1, 0, 0, 0, 1, 42] := by decide
  rw [wrapState, append_data, wrap_first_lists_last, append_data, hnew, hnewdata,
    h1, h2, List.nil_append]

theorem wrap_data_length : wrapState.data.length = 2 ^ 32 + 6 := by
  rw [wrap_data, List.length_append, entryBytes_length_var, List.length_replicate,
    wrap_variant]
  norm_num

/-- The wrapped state's chain for list 0 sees only the giant first record:
the wrapped head points back at offset 0.

(Goals mentioning the `2^32 - 9`-element `List.replicate` literal are closed
by targeted rewriting only; evaluating the literal is infeasible.) -/
theorem wrap_chain :
    Chain none wrapState.data 1 [List.replicate (2 ^ 32 - 9) 7] := by
  have hb : (1 : Nat) - 1
      + (entryBytes none 0 (List.replicate (2 ^ 32 - 9) 7)).length
      ≤ wrapState.data.length := by
    rw [wrap_data_length, entryBytes_length_var, List.length_replicate, wrap_variant]
    norm_num
  have hby : wrapState.data.drop (1 - 1)
      = entryBytes none 0 (List.replicate (2 ^ 32 - 9) 7)
        ++ wrapState.data.drop
          (1 - 1 + (entryBytes none 0 (List.replicate (2 ^ 32 - 9) 7)).length) := by
    rw [show (1 : Nat) - 1 = 0 from rfl, List.drop_zero, Nat.zero_add, wrap_data,
      List.drop_left]
  exact Chain.snoc 1 0 [] (List.replicate (2 ^ 32 - 9) 7) Nat.one_pos Nat.one_pos
    (Nat.pos_pow_of_pos 32 (by norm_num)) hb hby (fun L h => by cases h) Chain.nil

/-- Extracting list 0 of the wrapped state loses the second record: the walk
stops after the first record because the stored head wrapped to `1`. -/
theorem wrap_extract :
    wrapState.extract_list 0 none = List.replicate (2 ^ 32 - 9) 7 := by
  have hd64 : wrapState.data.length < 2 ^ 64 := by
    rw [wrap_data_length]
    norm_num
  have hg : ([1] : List Nat).getD 0 0 = 1 := by decide
  have hchain : Chain none wrapState.data (wrapState.lists_last.getD 0 0)
      [List.replicate (2 ^ 32 - 9) 7] := by
    rw [wrap_lists_last, hg]
    exact wrap_chain
  have h := extract_list_chain wrapState none 0 hd64 hchain
  rw [h, List.flatten_cons, List.flatten_nil, List.append_nil]

/-- The bytes actually appended to list 0 in the wrap scenario. -/
theorem wrap_concat :
    concatOf [(0, List.replicate (2 ^ 32 - 9) 7), (0, [42])] 0
      = List.replicate (2 ^ 32 - 9) 7 ++ [42] := by
  rw [concatOf, if_pos rfl, concatOf, if_pos rfl, concatOf,
    show ([42] ++ ([] : List Nat)) = [42] from rfl]

/-- A list is never equal to itself with one more byte appended. -/
theorem wrap_extract_ne :
    List.replicate (2 ^ 32 - 9) 7 ≠ List.replicate (2 ^ 32 - 9) 7 ++ [42] := by
  intro heq
  have hl := congrArg List.length heq
  rw [List.length_append, List.length_replicate,
    show ([42] : List Nat).length = 1 from rfl] at hl
  omega

/-- The two wrap-scenario appends, phrased as an append run. -/
theorem wrap_run : runSingleAppends (SingleVecLists.new 1) none
      [(0, List.replicate (2 ^ 32 - 9) 7), (0, [42])] = wrapState := by
  rw [runSingleAppends, runSingleAppends, runSingleAppends, wrapState]

/-- **C1 (counterexample).** The claim as stated — with no bound on the total
data size — is false: after appending a `2^32 - 9`-byte record and then
`[42]` to list 0, `extract_list 0` returns only the first record, not the
concatenation of the appended bytes, and differs from the `MultiVecLists`
reference. -/
theorem single_vec_lists_equivalence_fails :
    ¬ ((runSingleAppends (SingleVecLists.new 1) none
          [(0, List.replicate (2 ^ 32 - 9) 7), (0, [42])]).extract_list 0 none
        = concatOf [(0, List.replicate (2 ^ 32 - 9) 7), (0, [42])] 0)
    ∧ ¬ ((runSingleAppends (SingleVecLists.new 1) none
          [(0, List.replicate (2 ^ 32 - 9) 7), (0, [42])]).extract_list 0 none
        = (runMultiAppends (MultiVecLists.new 1) none
            [(0, List.replicate (2 ^ 32 - 9) 7), (0, [42])]).extract_list 0 none) := by
  have hmulti : (runMultiAppends (MultiVecLists.new 1) none
        [(0, List.replicate (2 ^ 32 - 9) 7), (0, [42])]).extract_list 0 none
      = concatOf [(0, List.replicate (2 ^ 32 - 9) 7), (0, [42])] 0 := by
    rw [MultiVecLists.extract_list]
    rw [runMultiAppends_getD none _ (MultiVecLists.new 1) 0 ?_]
    · rw [show (MultiVecLists.new 1).lists.getD 0 [] = [] from rfl,
        List.nil_append]
    · intro op hop
      rcases List.mem_cons.mp hop with rfl | hop2
      · exact Nat.zero_lt_one
      · rcases List.mem_cons.mp hop2 with rfl | hop3
        · exact Nat.zero_lt_one
        · exact absurd hop3 (List.not_mem_nil op)
  constructor
  · rw [wrap_run, wrap_extract, wrap_concat]
    exact wrap_extract_ne
  · rw [wrap_run, wrap_extract, hmulti, wrap_concat]
    exact wrap_extract_ne

/-- **C10.** `SingleVecLists` stores each list head (and back-pointer source)
as `data.len() as u32 + 1`, i.e. `offset + 1` truncated modulo `2^32`; and
the append/extract equivalence genuinely breaks once the shared vector
reaches `2^32` bytes: in the wrap scenario the stored head wraps back to the
first record and `extract_list` no longer returns the appended bytes. -/
theorem lists_last_truncated_mod_u32 (s : SingleVecLists) (i : Nat)
    (d : List Nat) (fs : Option Nat) (hi : i < s.lists_last.length) :
    (s.append i d fs).lists_last.getD i 0
        = (s.data.length % 2 ^ 32 + 1) % 2 ^ 32
      ∧ 2 ^ 32 ≤ wrapState.data.length
      ∧ wrapState.extract_list 0 none
        ≠ List.replicate (2 ^ 32 - 9) 7 ++ [42] := by
  refine ⟨?_, ?_, ?_⟩
  · rw [append_lists_last]
    simp [List.getD_eq_getElem?_getD, List.getElem?_set_self hi]
  · rw [wrap_data_length]
    norm_num
  · rw [wrap_extract]
    exact wrap_extract_ne

/-- Witness for **C10** on a one-list store. -/
theorem lists_last_truncated_mod_u32_witness :
    ((SingleVecLists.new 1).append 0 [5] none).lists_last.getD 0 0
        = (((SingleVecLists.new 1).data.length % 2 ^ 32 + 1) % 2 ^ 32)
      ∧ 2 ^ 32 ≤ wrapState.data.length
      ∧ wrapState.extract_list 0 none
        ≠ List.replicate (2 ^ 32 - 9) 7 ++ [42] :=
  lists_last_truncated_mod_u32 (SingleVecLists.new 1) 0 [5] none (by decide)

/-! ## Value encoders (`src/io.rs` lines 296–385) -/

/-- `encode_9_value` (`src/io.rs` lines 373–385): the 9-value logic
alphabet. -/
def encode_9_value (value : Nat) : Option Nat :=
  if value = 120 ∨ value = 88 then some 0        -- 'x' | 'X'
  else if value = 122 ∨ value = 90 then some 1   -- 'z' | 'Z'
  else if value = 104 ∨ value = 72 then some 2   -- 'h' | 'H'
  else if value = 117 ∨ value = 85 then some 3   -- 'u' | 'U'
  else if value = 119 ∨ value = 87 then some 4   -- 'w' | 'W'
  else if value = 108 ∨ value = 76 then some 5   -- 'l' | 'L'
  else if value = 45 then some 6                 -- '-'
  else if value = 63 then some 7                 -- '?'
  else none

/-- `write_one_bit_signal` (`src/io.rs` lines 299–323), returning the emitted
bytes. -/
def write_one_bit_signal (time_delta : Nat) (value : Nat) :
    Except FstWriteError (List Nat) :=
  if value = 48 ∨ value = 49 then                -- b'0' | b'1'
    let bit := value - 48
    .ok (write_variant_u64 ((time_delta <<< 2) ||| (bit <<< 1)))
  else
    match encode_9_value value with
    | some encoding =>
      .ok (write_variant_u64 ((time_delta <<< 4) ||| (encoding <<< 1) ||| 1))
    | none => .error (.invalidCharacter value)

/-- `is_digital` (`src/io.rs` lines 368–370). -/
def is_digital (values : List Nat) : Bool :=
  values.all fun v => v == 48 || v == 49

/-- One packed byte of a digital multi-bit value: bit `7 - ii` carries the
`ii`-th value of the chunk (the `wip_byte` accumulation of the source). -/
def chunkByte : List Nat → Nat → Nat
  | [], _ => 0
  | v :: rest, ii => ((v - 48) <<< (7 - ii)) ||| chunkByte rest (ii + 1)

/-- The packing loop of `write_multi_bit_signal`, eight values per byte, with
a final partial byte zero-padded.  The fuel (the value count) strictly bounds
the number of chunks. -/
def packDigitalAux : Nat → List Nat → List Nat
  | 0, _ => []
  | _, [] => []
  | fuel + 1, values => chunkByte (values.take 8) 0 :: packDigitalAux fuel (values.drop 8)

def pack_digital (values : List Nat) : List Nat :=
  packDigitalAux values.length values

/-- `write_multi_bit_signal` (`src/io.rs` lines 326–353), returning the
emitted bytes. -/
def write_multi_bit_signal (time_delta : Nat) (values : List Nat) :
    Except FstWriteError (List Nat) :=
  let dig := is_digital values
  .ok (write_variant_u64 ((time_delta <<< 1) ||| (if dig then 0 else 1))
    ++ (if dig then pack_digital values else values))

/-- `write_time_chain_update` (`src/io.rs` lines 388–397), appended to the
time table. -/
def write_time_chain_update (time_table : List Nat) (prev_time current_time : Nat) :
    List Nat :=
  time_table ++ write_variant_u64 (current_time - prev_time)

/-! ## The signal buffer (`src/buffer.rs` lines 14–183) -/

/-- Modelled from the spec: `FstSignalId` (its defining module is not part of
the source snapshot) is an opaque 1-based handle; `to_array_index` is the
0-based position, `from_index`/`to_index` expose the raw handle. -/
abbrev FstSignalId : Type := Nat

def FstSignalId.from_index (v : Nat) : FstSignalId := v

def FstSignalId.to_index (id : FstSignalId) : Nat := id

def FstSignalId.to_array_index (id : FstSignalId) : Nat := id - 1

/-- Modelled from the spec: `FstSignalType` (its defining module is not part
of the source snapshot) is either a bit vector of a fixed width or a real;
`len` is the bytes consumed per value (reals are 8-byte `f64`), and the file
format encodes reals as width `0`. -/
inductive FstSignalType : Type
  | bitVec (width : Nat)
  | real
  deriving DecidableEq, Repr

def FstSignalType.len : FstSignalType → Nat
  | .bitVec width => width
  | .real => 8

def FstSignalType.to_file_format : FstSignalType → Nat
  | .bitVec width => width
  | .real => 0

/-- Constant per-signal metadata (`src/buffer.rs` lines 34–40). -/
structure SignalInfo : Type where
  /-- length in bytes / number of characters -/
  len : Nat
  /-- starting offset in the value buffer -/
  offset : Nat
  deriving DecidableEq, Repr

/-- The accumulation loop of `gen_signal_info` (`src/buffer.rs` lines
42–53). -/
def genSignalInfoAux : List FstSignalType → Nat → List SignalInfo × Nat
  | [], offset => ([], offset)
  | signal :: rest, offset =>
    let next := genSignalInfoAux rest (offset + signal.len)
    (⟨signal.len, offset⟩ :: next.1, next.2)

def gen_signal_info (signals : List FstSignalType) : List SignalInfo × Nat :=
  genSignalInfoAux signals 0

/-- `SignalBuffer` (`src/buffer.rs` lines 14–32). -/
structure SignalBuffer : Type where
  start_time : Nat
  end_time : Nat
  /-- constant signal meta-data -/
  signals : List SignalInfo
  /-- time table index of the previous change for each signal -/
  prev_time_table_index : List Nat
  /-- values for all signals in the first time step of this block -/
  frame : List Nat
  /-- copy of the frame with all value changes applied -/
  values : List Nat
  value_changes : SingleVecLists
  /-- the delta encoded timetable -/
  time_table : List Nat
  time_table_index : Nat
  /-- scratch buffer for encoding signals -/
  write_buf : List Nat
  deriving DecidableEq, Repr

/-- `SignalBuffer::new` (`src/buffer.rs` lines 56–75); initial values are all
`b'x'` (byte 120). -/
def SignalBuffer.new (signals : List FstSignalType) : SignalBuffer :=
  let gen := gen_signal_info signals
  { start_time := 0
    end_time := 0
    signals := gen.1
    prev_time_table_index := List.replicate gen.1.length 0
    frame := List.replicate gen.2 120
    values := List.replicate gen.2 120
    value_changes := SingleVecLists.new gen.1.length
    time_table := []
    time_table_index := 0
    write_buf := [] }

/-- `SignalBuffer::time_change` (`src/buffer.rs` lines 77–98).  On error the
buffer is untouched (the Rust code errors before any mutation). -/
def SignalBuffer.time_change (buf : SignalBuffer) (new_time : Nat) :
    Except FstWriteError SignalBuffer :=
  if new_time < buf.end_time then
    .error (.timeDecrease buf.end_time new_time)
  else if new_time = buf.end_time then
    .ok buf
  else
    let first_time_step := buf.time_table.isEmpty
    .ok { buf with
      time_table := write_time_chain_update buf.time_table buf.end_time new_time
      frame := if first_time_step then buf.values else buf.frame
      start_time := if first_time_step then new_time else buf.start_time
      time_table_index :=
        if first_time_step then buf.time_table_index else buf.time_table_index + 1
      end_time := new_time }

/-- `expand_special_vector_cases` (`src/buffer.rs` lines 362–384).  `none`
covers both the explicit `None` returns and — for an empty `value` with
positive `len` — the `value[0]` index panic, which surfaces identically at
the only call site (`signal_change` panics on `none`). -/
def expand_special_vector_cases (value : List Nat) (len : Nat) :
    Option (List Nat) :=
  if len ≤ value.length then none
  else
    match value with
    | [] => none
    | v0 :: _ =>
      if v0 = 49 ∨ v0 = 48 then                      -- b'1' | b'0'
        some (List.replicate (len - value.length) 48 ++ value)
      else if v0 = 120 ∨ v0 = 88 ∨ v0 = 122 ∨ v0 = 90 then  -- 'x' 'X' 'z' 'Z'
        some (List.replicate (len - value.length) v0 ++ value)
      else none

/-- The body of `SignalBuffer::signal_change` after value normalization
(`src/buffer.rs` lines 121–149), with `value` already of the declared
length.  On an `InvalidCharacter` error the functional model returns only
the error; the Rust code has at that point already updated `values[range]`
in place (documented divergence of the error path, unreachable from the
claims below). -/
def SignalBuffer.signal_change_normalized (buf : SignalBuffer)
    (signal_id : FstSignalId) (info : SignalInfo) (value : List Nat) :
    FstResult SignalBuffer :=
  let len := info.len
  let start := info.offset
  let first_time_step := buf.time_table.isEmpty
  if first_time_step then
    .ok { buf with values := setSlice buf.values start value }
  else if listSlice buf.values start len = value then
    .ok buf
  else
    let time_table_idx_delta := buf.time_table_index
      - buf.prev_time_table_index.getD signal_id.to_array_index 0
    let encoded :=
      match value with
      | [v] => write_one_bit_signal time_table_idx_delta v
      | _ => write_multi_bit_signal time_table_idx_delta value
    match encoded with
    | .error e => .error e
    | .ok wbuf =>
      .ok { buf with
        values := setSlice buf.values start value
        write_buf := wbuf
        value_changes := buf.value_changes.append signal_id.to_array_index wbuf none
        prev_time_table_index :=
          buf.prev_time_table_index.set signal_id.to_array_index buf.time_table_index }

/-- `SignalBuffer::signal_change` (`src/buffer.rs` lines 100–150): look up
the signal, normalize the value length (panicking like the Rust
`unwrap_or_else(|| panic!(..))` when expansion fails), then dispatch. -/
def SignalBuffer.signal_change (buf : SignalBuffer) (signal_id : FstSignalId)
    (value : List Nat) : FstResult SignalBuffer :=
  match buf.signals.get? signal_id.to_array_index with
  | none => .error (.invalidSignalId signal_id)
  | some info =>
    if value.length = info.len then
      buf.signal_change_normalized signal_id info value
    else
      match expand_special_vector_cases value info.len with
      | none => .panicked
      | some expanded => buf.signal_change_normalized signal_id info expanded

/-- **C3.** `time_change t` with `t < end_time` returns
`TimeDecrease(end_time, t)` and changes nothing (the Rust code errors before
any mutation; the functional model returns only the error), and
`time_change t` with `t = end_time` returns `Ok` leaving the buffer exactly
as it was. -/
theorem time_change_monotonic (buf : SignalBuffer) (t : Nat) :
    (t < buf.end_time →
      buf.time_change t = .error (.timeDecrease buf.end_time t))
    ∧ (t = buf.end_time → buf.time_change t = .ok buf) := by
  constructor
  · intro h
    rw [SignalBuffer.time_change, if_pos h]
  · intro h
    rw [SignalBuffer.time_change, if_neg (by omega), if_pos h]

/-- Witness for **C3** on a buffer whose section already reached time 5. -/
theorem time_change_monotonic_witness :
    ({ SignalBuffer.new [] with end_time := 5 } : SignalBuffer).time_change 3
      = .error (.timeDecrease 5 3)
    ∧ ({ SignalBuffer.new [] with end_time := 5 } : SignalBuffer).time_change 5
      = .ok { SignalBuffer.new [] with end_time := 5 } :=
  ⟨(time_change_monotonic _ 3).1 (by decide),
   (time_change_monotonic _ 5).2 (by decide)⟩

/-- **C4.** For `t > end_time`, `time_change t` appends
`variant_u64 (t - end_time)` to the time table and sets `end_time := t`; on
the first advance of the section (empty time table, whose index is then 0)
it snapshots `frame := values` and sets `start_time := t` leaving
`time_table_index` at 0, otherwise it leaves `frame` and `start_time` alone
and increments `time_table_index` by exactly 1. -/
theorem time_change_advance (buf : SignalBuffer) (t : Nat)
    (h : buf.end_time < t)
    (hidx : buf.time_table = [] → buf.time_table_index = 0) :
    buf.time_change t = .ok { buf with
      time_table := buf.time_table ++ write_variant_u64 (t - buf.end_time)
      end_time := t
      frame := if buf.time_table = [] then buf.values else buf.frame
      start_time := if buf.time_table = [] then t else buf.start_time
      time_table_index :=
        if buf.time_table = [] then 0 else buf.time_table_index + 1 } := by
  rw [SignalBuffer.time_change, if_neg (by omega), if_neg (by omega),
    write_time_chain_update]
  by_cases he : buf.time_table = []
  · simp [he, hidx he]
  · simp [he, List.isEmpty_iff]

/-- Witness for **C4**: a first advance (empty table) of a fresh one-signal
buffer. -/
theorem time_change_advance_witness :
    (SignalBuffer.new [FstSignalType.bitVec 4]).time_change 7
      = .ok { SignalBuffer.new [FstSignalType.bitVec 4] with
          time_table := (SignalBuffer.new [FstSignalType.bitVec 4]).time_table
            ++ write_variant_u64
              (7 - (SignalBuffer.new [FstSignalType.bitVec 4]).end_time)
          end_time := 7
          frame := if (SignalBuffer.new [FstSignalType.bitVec 4]).time_table = []
            then (SignalBuffer.new [FstSignalType.bitVec 4]).values
            else (SignalBuffer.new [FstSignalType.bitVec 4]).frame
          start_time := if (SignalBuffer.new [FstSignalType.bitVec 4]).time_table = []
            then 7 else (SignalBuffer.new [FstSignalType.bitVec 4]).start_time
          time_table_index :=
            if (SignalBuffer.new [FstSignalType.bitVec 4]).time_table = []
            then 0
            else (SignalBuffer.new [FstSignalType.bitVec 4]).time_table_index + 1 } :=
  time_change_advance (SignalBuffer.new [FstSignalType.bitVec 4]) 7 (by decide)
    (fun _ => rfl)

/-- **C6.** `write_one_bit_signal d v` emits exactly
`variant_u64 ((d << 2) | (bit << 1))` for `v ∈ {'0','1'}` with
`bit = v - '0'`; exactly `variant_u64 ((d << 4) | (enc << 1) | 1)` when
`encode_9_value` maps `v` (x/X→0, z/Z→1, h/H→2, u/U→3, w/W→4, l/L→5, '-'→6,
'?'→7); and fails with `InvalidCharacter v`, emitting nothing, on every
other byte. -/
theorem write_one_bit_signal_encoding (d v : Nat) :
    ((v = 48 ∨ v = 49) →
      write_one_bit_signal d v
        = .ok (write_variant_u64 ((d <<< 2) ||| ((v - 48) <<< 1))))
    ∧ (∀ e, encode_9_value v = some e →
      write_one_bit_signal d v
        = .ok (write_variant_u64 ((d <<< 4) ||| (e <<< 1) ||| 1)))
    ∧ (v ≠ 48 → v ≠ 49 → encode_9_value v = none →
      write_one_bit_signal d v = .error (.invalidCharacter v)) := by
  refine ⟨?_, ?_, ?_⟩
  · intro h
    rw [write_one_bit_signal, if_pos h]
  · intro e he
    have hv : ¬(v = 48 ∨ v = 49) := by
      intro h
      rcases h with rfl | rfl <;> simp [encode_9_value] at he
    rw [write_one_bit_signal, if_neg hv, he]
  · intro h48 h49 hnone
    rw [write_one_bit_signal, if_neg (by tauto), hnone]

/-- Witness for **C6** at delta 3 with bytes `'1'`, `'z'` and `'2'`. -/
theorem write_one_bit_signal_encoding_witness :
    write_one_bit_signal 3 49
        = .ok (write_variant_u64 ((3 <<< 2) ||| ((49 - 48) <<< 1)))
    ∧ write_one_bit_signal 3 122
        = .ok (write_variant_u64 ((3 <<< 4) ||| (1 <<< 1) ||| 1))
    ∧ write_one_bit_signal 3 50 = .error (.invalidCharacter 50) :=
  ⟨(write_one_bit_signal_encoding 3 49).1 (Or.inr rfl),
   (write_one_bit_signal_encoding 3 122).2.1 1 (by decide),
   (write_one_bit_signal_encoding 3 50).2.2 (by decide) (by decide) (by decide)⟩

/-- After at least one time advance, re-submitting the value already stored
for a signal is a complete no-op: `signal_change_normalized` returns the
untouched buffer. -/
theorem signal_change_normalized_dedup (buf : SignalBuffer)
    (id : FstSignalId) (info : SignalInfo) (u : List Nat)
    (ht : buf.time_table ≠ [])
    (hu : listSlice buf.values info.offset info.len = u) :
    buf.signal_change_normalized id info u = .ok buf := by
  have hempty : buf.time_table.isEmpty = false := by
    cases htt : buf.time_table with
    | nil => exact absurd htt ht
    | cons a l => rfl
  rw [SignalBuffer.signal_change_normalized]
  rw [hempty]
  simp only [Bool.false_eq_true, if_false]
  rw [if_pos hu]

/-- **C7.** After at least one time advance in the section, calling
`signal_change` with a value whose (possibly expanded) bytes equal the
stored current value returns `Ok` and changes nothing at all: the very same
buffer comes back — no record is appended, and `values`,
`prev_time_table_index` and `write_buf` are untouched. -/
theorem signal_change_dedup (buf : SignalBuffer) (id : FstSignalId)
    (v w : List Nat) (info : SignalInfo)
    (hinfo : buf.signals.get? id.to_array_index = some info)
    (ht : buf.time_table ≠ [])
    (hw : (if v.length = info.len then some v
      else expand_special_vector_cases v info.len) = some w)
    (hvals : listSlice buf.values info.offset info.len = w) :
    buf.signal_change id v = .ok buf := by
  simp only [SignalBuffer.signal_change, hinfo]
  by_cases hlen : v.length = info.len
  · rw [if_pos hlen] at hw ⊢
    have hvw : v = w := by
      simpa using hw
    rw [hvw]
    exact signal_change_normalized_dedup buf id info w ht hvals
  · rw [if_neg hlen] at hw ⊢
    rw [hw]
    exact signal_change_normalized_dedup buf id info w ht hvals

/-- A concrete one-signal buffer (width 4) used by the witnesses below. -/
def exampleBuffer : SignalBuffer := SignalBuffer.new [FstSignalType.bitVec 4]

/-- Witness for **C7**: with one advance done and current value `"0001"`,
re-submitting the short form `"1"` (which expands to `"0001"`) is a no-op. -/
theorem signal_change_dedup_witness :
    ({ exampleBuffer with time_table := [1], values := [48, 48, 48, 49] }
        : SignalBuffer).signal_change 1 [49]
      = .ok { exampleBuffer with time_table := [1], values := [48, 48, 48, 49] } :=
  signal_change_dedup _ 1 [49] [48, 48, 48, 49] ⟨4, 0⟩ (by decide) (by decide)
    (by decide) (by decide)

/-- Unfolding `expand_special_vector_cases` on an empty value. -/
theorem expand_nil (len : Nat) : expand_special_vector_cases [] len = none := by
  unfold expand_special_vector_cases
  split
  · rfl
  · rfl

/-- Unfolding `expand_special_vector_cases` on a non-empty value. -/
theorem expand_cons (v0 : Nat) (rest : List Nat) (len : Nat) :
    expand_special_vector_cases (v0 :: rest) len
      = if len ≤ (v0 :: rest).length then none
        else if v0 = 49 ∨ v0 = 48 then
          some (List.replicate (len - (v0 :: rest).length) 48 ++ (v0 :: rest))
        else if v0 = 120 ∨ v0 = 88 ∨ v0 = 122 ∨ v0 = 90 then
          some (List.replicate (len - (v0 :: rest).length) v0 ++ (v0 :: rest))
        else none := rfl

/-- If expansion succeeds, the result has exactly the declared length. -/
theorem expand_length (v : List Nat) (len : Nat) (w : List Nat)
    (h : expand_special_vector_cases v len = some w) : w.length = len := by
  match v with
  | [] => rw [expand_nil] at h; cases h
  | v0 :: rest =>
    rw [expand_cons] at h
    by_cases hge : len ≤ (v0 :: rest).length
    · rw [if_pos hge] at h
      cases h
    · rw [if_neg hge] at h
      by_cases h1 : v0 = 49 ∨ v0 = 48
      · rw [if_pos h1] at h
        have hw := (Option.some.injEq _ _).mp h
        rw [← hw]
        simp at hge ⊢
        omega
      · rw [if_neg h1] at h
        by_cases h2 : v0 = 120 ∨ v0 = 88 ∨ v0 = 122 ∨ v0 = 90
        · rw [if_pos h2] at h
          have hw := (Option.some.injEq _ _).mp h
          rw [← hw]
          simp at hge ⊢
          omega
        · rw [if_neg h2] at h
          cases h

/-- **C5 (amended).** For a registered signal of width `len` and a value
shorter than `len`: a leading `'0'`/`'1'` left-extends with `'0'`, a leading
`'x'/'X'/'z'/'Z'` left-extends with that character (and `signal_change` then
behaves exactly as if called with the expanded value); any other leading
character makes the expansion fail and `signal_change` *panic* (the Rust
`panic!("Failed to parse four state value ...")`) — it does not return an
`InvalidCharacter` error.  A value longer than `len` likewise panics — there
is no `InvalidValueLength` error in the code. -/
theorem signal_change_expansion (buf : SignalBuffer) (id : FstSignalId)
    (v : List Nat) (info : SignalInfo) (c : Nat)
    (hinfo : buf.signals.get? id.to_array_index = some info) :
    (v.length < info.len → v.head? = some c →
      ((c = 48 ∨ c = 49 →
        expand_special_vector_cases v info.len
          = some (List.replicate (info.len - v.length) 48 ++ v))
      ∧ ((c = 120 ∨ c = 88 ∨ c = 122 ∨ c = 90) →
        expand_special_vector_cases v info.len
          = some (List.replicate (info.len - v.length) c ++ v))
      ∧ (¬(c = 48 ∨ c = 49 ∨ c = 120 ∨ c = 88 ∨ c = 122 ∨ c = 90) →
        expand_special_vector_cases v info.len = none)))
    ∧ (v.length ≠ info.len → expand_special_vector_cases v info.len = none →
      buf.signal_change id v = .panicked)
    ∧ (∀ w, v.length ≠ info.len →
      expand_special_vector_cases v info.len = some w →
      buf.signal_change id v = buf.signal_change id w)
    ∧ (info.len < v.length → buf.signal_change id v = .panicked) := by
  refine ⟨?_, ?_, ?_, ?_⟩
  · intro hlt hhead
    match v, hhead with
    | v0 :: rest, hhead =>
      have hc : v0 = c := by
        simpa using hhead
      subst hc
      refine ⟨?_, ?_, ?_⟩
      · intro h01
        rw [expand_cons, if_neg (by simp at hlt ⊢; omega), if_pos (by tauto)]
      · intro hxz
        have hn01 : ¬(v0 = 49 ∨ v0 = 48) := by
          rcases hxz with rfl | rfl | rfl | rfl <;> simp
        rw [expand_cons, if_neg (by simp at hlt ⊢; omega), if_neg hn01,
          if_pos (by tauto)]
      · intro hother
        rw [expand_cons, if_neg (by simp at hlt ⊢; omega), if_neg (by tauto),
          if_neg (by tauto)]
  · intro hne hnone
    simp only [SignalBuffer.signal_change, hinfo, if_neg hne, hnone]
  · intro w hne hsome
    have hwlen : w.length = info.len := expand_length v info.len w hsome
    simp only [SignalBuffer.signal_change, hinfo, if_neg hne, hsome,
      if_pos hwlen]
  · intro hlt
    have hnone : expand_special_vector_cases v info.len = none := by
      match v with
      | [] => exact expand_nil info.len
      | v0 :: rest =>
        rw [expand_cons, if_pos (by simp at hlt ⊢; omega)]
    simp only [SignalBuffer.signal_change, hinfo, if_neg (by omega : ¬v.length = info.len),
      hnone]

/-- Witness for **C5 (amended)**: `"1"` on a width-4 signal expands to
`"0001"` and behaves as `"0001"`. -/
theorem signal_change_expansion_witness :
    expand_special_vector_cases [49] 4
        = some (List.replicate (4 - 1) 48 ++ [49])
    ∧ exampleBuffer.signal_change 1 [49]
      = exampleBuffer.signal_change 1 (List.replicate (4 - 1) 48 ++ [49]) :=
  ⟨((signal_change_expansion exampleBuffer 1 [49] ⟨4, 0⟩ 49 (by decide)).1
      (by decide) rfl).1 (Or.inr rfl),
   (signal_change_expansion exampleBuffer 1 [49] ⟨4, 0⟩ 49 (by decide)).2.2.1
      (List.replicate (4 - 1) 48 ++ [49]) (by decide) (by decide)⟩

/-- **C5 (counterexample).** On a width-4 signal, the value `"2"` does not
fail with `InvalidCharacter`, and the too-long value `"11001"` does not
return any error either: both calls panic. -/
theorem signal_change_invalid_char_is_panic :
    exampleBuffer.signal_change 1 [50] = .panicked
    ∧ exampleBuffer.signal_change 1 [50] ≠ .error (.invalidCharacter 50)
    ∧ exampleBuffer.signal_change 1 [49, 49, 48, 48, 49] = .panicked := by
  decide

/-! ## The header writer (`src/writer.rs` lines 21–106)

`FstHeaderWriter::var` registers variables, handing out 1-based handles for
non-alias variables and echoing the aliased handle otherwise. -/

/-- Modelled from the spec: the `FstVarType` / `FstVarDirection` enumerations
(spec §6) are byte codes; the source only ever compares against
`FstVarType::Port` (code 17). -/
abbrev FstVarType : Type := Nat

def FstVarType.port : FstVarType := 17

/-- Modelled from the spec: `VarDirection` byte codes (spec §6). -/
abbrev FstVarDirection : Type := Nat

/-- `write_c_str` (`src/io.rs` lines 94–99): raw bytes then a 0
terminator. -/
def write_c_str (s : List Nat) : List Nat := s ++ [0]

/-- `write_hierarchy_var` (`src/io.rs` lines 239–263), returning the emitted
bytes. -/
def write_hierarchy_var (tpe : FstVarType) (direction : FstVarDirection)
    (name : List Nat) (signal_tpe : FstSignalType)
    (aliasId : Option FstSignalId) : List Nat :=
  let length := signal_tpe.len
  let raw_length := if tpe = FstVarType.port then 3 * length + 2 else length
  [tpe % 256, direction % 256] ++ write_c_str name
    ++ write_variant_u64 raw_length
    ++ write_variant_u64 ((aliasId.map FstSignalId.to_index).getD 0)

/-- `FstHeaderWriter` (`src/writer.rs` lines 21–29); the output handle `out`
is carried separately in the stream model below. -/
structure FstHeaderWriter : Type where
  /-- collected hierarchy section, compressed at finish -/
  hierarchy_buf : List Nat
  signals : List FstSignalType
  scope_depth : Nat
  var_count : Nat
  scope_count : Nat
  deriving DecidableEq, Repr

/-- The writer state `FstHeaderWriter::open` creates (`src/writer.rs` lines
32–44), after the header meta data has gone to the stream. -/
def initHeaderWriter : FstHeaderWriter :=
  { hierarchy_buf := [], signals := [], scope_depth := 0, var_count := 0
    scope_count := 0 }

/-- `FstHeaderWriter::var` (`src/writer.rs` lines 64–82). -/
def FstHeaderWriter.var (w : FstHeaderWriter) (name : List Nat)
    (signal_tpe : FstSignalType) (tpe : FstVarType) (dir : FstVarDirection)
    (aliasId : Option FstSignalId) : FstSignalId × FstHeaderWriter :=
  let var_count := w.var_count + 1
  let hierarchy_buf :=
    w.hierarchy_buf ++ write_hierarchy_var tpe dir name signal_tpe aliasId
  match aliasId with
  | some a =>
    (a, { w with var_count := var_count, hierarchy_buf := hierarchy_buf })
  | none =>
    let signals := w.signals ++ [signal_tpe]
    (FstSignalId.from_index signals.length,
      { w with var_count := var_count, hierarchy_buf := hierarchy_buf
               signals := signals })

/-- `HeaderFinishInfo` as constructed by `FstHeaderWriter::finish`
(`src/writer.rs` lines 92–98); its defining module is not in the snapshot,
the fields are read off the construction site. -/
structure HeaderFinishInfo : Type where
  end_time : Nat
  scope_count : Nat
  var_count : Nat
  num_signals : Nat
  num_value_change_sections : Nat
  deriving DecidableEq, Repr

/-- The `HeaderFinishInfo` part of `FstHeaderWriter::finish` (`src/writer.rs`
lines 84–105); the hierarchy/geometry block emission of lines 89–90 is
modelled in the stream section below, and the signal buffer allocation is
`SignalBuffer.new` above. -/
def FstHeaderWriter.finish_info (w : FstHeaderWriter) : HeaderFinishInfo :=
  { end_time := 0, scope_count := w.scope_count, var_count := w.var_count
    num_signals := w.signals.length, num_value_change_sections := 0 }

/-- One `var` call's arguments. -/
structure VarCall : Type where
  name : List Nat
  signal_tpe : FstSignalType
  tpe : FstVarType
  dir : FstVarDirection
  aliasId : Option FstSignalId
  deriving DecidableEq, Repr

/-- Run a sequence of `var` calls, collecting the returned handles. -/
def runVarCalls (w : FstHeaderWriter) :
    List VarCall → List FstSignalId × FstHeaderWriter
  | [] => ([], w)
  | c :: cs =>
    let r := w.var c.name c.signal_tpe c.tpe c.dir c.aliasId
    let rest := runVarCalls r.2 cs
    (r.1 :: rest.1, rest.2)

/-- The signal types of the non-alias calls, in order. -/
def nonAliasTypes (cs : List VarCall) : List FstSignalType :=
  cs.filterMap fun c =>
    match c.aliasId with
    | none => some c.signal_tpe
    | some _ => none

/-- The handles returned for the non-alias calls, in order. -/
def nonAliasHandles (cs : List VarCall) (ids : List FstSignalId) :
    List FstSignalId :=
  (cs.zip ids).filterMap fun p =>
    match p.1.aliasId with
    | none => some p.2
    | some _ => none

/-- `var` bookkeeping over a call sequence, from an arbitrary writer
state. -/
theorem runVarCalls_general :
    ∀ (cs : List VarCall) (w : FstHeaderWriter),
      ((runVarCalls w cs).2.var_count = w.var_count + cs.length)
      ∧ ((runVarCalls w cs).2.signals = w.signals ++ nonAliasTypes cs)
      ∧ (nonAliasHandles cs (runVarCalls w cs).1
          = List.range' (w.signals.length + 1) (nonAliasTypes cs).length)
      ∧ (∀ p ∈ cs.zip (runVarCalls w cs).1, ∀ a, p.1.aliasId = some a → p.2 = a) := by
  intro cs
  induction cs with
  | nil =>
    intro w
    refine ⟨rfl, by simp [runVarCalls, nonAliasTypes], ?_, ?_⟩
    · simp [runVarCalls, nonAliasHandles, nonAliasTypes]
    · intro p hp
      simp [runVarCalls] at hp
  | cons c cs ih =>
    intro w
    rw [runVarCalls]
    match halias : c.aliasId with
    | none =>
      obtain ⟨ih1, ih2, ih3, ih4⟩ := ih (w.var c.name c.signal_tpe c.tpe c.dir none).2
      have hfst : (w.var c.name c.signal_tpe c.tpe c.dir none).1
          = FstSignalId.from_index (w.signals ++ [c.signal_tpe]).length := by
        simp only [FstHeaderWriter.var]
      have hsig : (w.var c.name c.signal_tpe c.tpe c.dir none).2.signals
          = w.signals ++ [c.signal_tpe] := by
        simp only [FstHeaderWriter.var]
      have hcount : (w.var c.name c.signal_tpe c.tpe c.dir none).2.var_count
          = w.var_count + 1 := by
        simp only [FstHeaderWriter.var]
      have htypes : nonAliasTypes (c :: cs) = c.signal_tpe :: nonAliasTypes cs := by
        rw [nonAliasTypes, List.filterMap_cons, halias, nonAliasTypes]
      refine ⟨?_, ?_, ?_, ?_⟩
      · rw [ih1, hcount]
        simp
        omega
      · rw [ih2, hsig, htypes]
        simp
      · rw [htypes, nonAliasHandles, List.zip_cons_cons, List.filterMap_cons, halias]
        rw [show (List.filterMap _ (cs.zip
            (runVarCalls (w.var c.name c.signal_tpe c.tpe c.dir none).2 cs).1))
          = nonAliasHandles cs
            (runVarCalls (w.var c.name c.signal_tpe c.tpe c.dir none).2 cs).1
          from rfl]
        rw [ih3, hsig, hfst, List.length_cons, List.range'_succ]
        simp [FstSignalId.from_index]
      · intro p hp
        rw [List.zip_cons_cons] at hp
        rcases List.mem_cons.mp hp with rfl | hp2
        · intro a ha
          rw [halias] at ha
          cases ha
        · exact ih4 p hp2
    | some aid =>
      obtain ⟨ih1, ih2, ih3, ih4⟩ :=
        ih (w.var c.name c.signal_tpe c.tpe c.dir (some aid)).2
      have hfst : (w.var c.name c.signal_tpe c.tpe c.dir (some aid)).1 = aid := by
        simp only [FstHeaderWriter.var]
      have hsig : (w.var c.name c.signal_tpe c.tpe c.dir (some aid)).2.signals
          = w.signals := by
        simp only [FstHeaderWriter.var]
      have hcount : (w.var c.name c.signal_tpe c.tpe c.dir (some aid)).2.var_count
          = w.var_count + 1 := by
        simp only [FstHeaderWriter.var]
      have htypes : nonAliasTypes (c :: cs) = nonAliasTypes cs := by
        rw [nonAliasTypes, List.filterMap_cons, halias, nonAliasTypes]
      refine ⟨?_, ?_, ?_, ?_⟩
      · rw [ih1, hcount]
        simp
        omega
      · rw [ih2, hsig, htypes]
      · rw [htypes, nonAliasHandles, List.zip_cons_cons, List.filterMap_cons, halias]
        rw [show (List.filterMap _ (cs.zip
            (runVarCalls (w.var c.name c.signal_tpe c.tpe c.dir (some aid)).2 cs).1))
          = nonAliasHandles cs
            (runVarCalls (w.var c.name c.signal_tpe c.tpe c.dir (some aid)).2 cs).1
          from rfl]
        rw [ih3, hsig]
      · intro p hp
        rw [List.zip_cons_cons] at hp
        rcases List.mem_cons.mp hp with rfl | hp2
        · intro a ha
          rw [halias] at ha
          rw [hfst]
          cases ha
          rfl
        · exact ih4 p hp2

/-- **C8.** From a fresh header writer: the k-th non-alias `var` call
returns the 1-based handle `k` and appends its signal type to the `signals`
vector; a `var` call with an alias returns the aliased handle and leaves
`signals` untouched; every `var` call increments `var_count`; and the
`num_signals` (max handle) recorded at `finish` equals the number of
non-alias `var` calls. -/
theorem header_writer_var_handles (cs : List VarCall) :
    ((runVarCalls initHeaderWriter cs).2.var_count = cs.length)
    ∧ ((runVarCalls initHeaderWriter cs).2.signals = nonAliasTypes cs)
    ∧ (nonAliasHandles cs (runVarCalls initHeaderWriter cs).1
        = List.range' 1 (nonAliasTypes cs).length)
    ∧ (∀ p ∈ cs.zip (runVarCalls initHeaderWriter cs).1,
        ∀ a, p.1.aliasId = some a → p.2 = a)
    ∧ ((runVarCalls initHeaderWriter cs).2.finish_info.num_signals
        = (nonAliasTypes cs).length) := by
  obtain ⟨h1, h2, h3, h4⟩ := runVarCalls_general cs initHeaderWriter
  refine ⟨?_, ?_, ?_, h4, ?_⟩
  · rw [h1]
    simp [initHeaderWriter]
  · rw [h2]
    rfl
  · rw [h3]
    simp [initHeaderWriter]
  · rw [FstHeaderWriter.finish_info, h2]
    rfl

/-- The `var` calls of the witness: two fresh wires and one alias of the
first. -/
def demoCalls : List VarCall :=
  [ { name := [97], signal_tpe := FstSignalType.bitVec 1, tpe := 15, dir := 0
      aliasId := none }
  , { name := [98], signal_tpe := FstSignalType.bitVec 16, tpe := 15, dir := 0
      aliasId := none }
  , { name := [99], signal_tpe := FstSignalType.bitVec 1, tpe := 15, dir := 0
      aliasId := some 1 } ]

/-- Witness for **C8** on `demoCalls`. -/
theorem header_writer_var_handles_witness :
    (runVarCalls initHeaderWriter demoCalls).2.var_count = 3
    ∧ nonAliasHandles demoCalls (runVarCalls initHeaderWriter demoCalls).1 = [1, 2]
    ∧ (runVarCalls initHeaderWriter demoCalls).2.finish_info.num_signals = 2 := by
  have h := header_writer_var_handles demoCalls
  refine ⟨h.1, ?_, ?_⟩
  · rw [h.2.2.1]
    rfl
  · rw [h.2.2.2.2]
    rfl

/-! ## Seekable output streams and block emission (`src/io.rs`)

A file-backed `Write + Seek` sink: a byte vector plus a cursor.  Writing
overwrites at the cursor and extends the data at its end (exact file
semantics whenever the cursor is at or before the end, which holds at every
write the embedded functions perform). -/

structure OutStream : Type where
  data : List Nat
  pos : Nat
  deriving DecidableEq, Repr

/-- `output.write_all(bs)`. -/
def OutStream.write_all (s : OutStream) (bs : List Nat) : OutStream :=
  { data := s.data.take s.pos ++ bs ++ s.data.drop (s.pos + bs.length)
    pos := s.pos + bs.length }

/-- `output.stream_position()`. -/
def OutStream.stream_position (s : OutStream) : Nat := s.pos

/-- `output.seek(SeekFrom::Start(p))`. -/
def OutStream.seek (s : OutStream) (p : Nat) : OutStream := { s with pos := p }

/-- `u64::to_be_bytes`. -/
def u64_be_bytes (v : Nat) : List Nat :=
  [v / 256 ^ 7 % 256, v / 256 ^ 6 % 256, v / 256 ^ 5 % 256, v / 256 ^ 4 % 256,
   v / 256 ^ 3 % 256, v / 256 ^ 2 % 256, v / 256 % 256, v % 256]

/-- `write_u64` (`src/io.rs` lines 68–72): big-endian. -/
def stream_write_u64 (s : OutStream) (v : Nat) : OutStream :=
  s.write_all (u64_be_bytes v)

/-- `write_u8` (`src/io.rs` lines 81–85). -/
def stream_write_u8 (s : OutStream) (v : Nat) : OutStream :=
  s.write_all [v % 256]

/-- `write_hierarchy_bytes` (`src/io.rs` lines 194–218).  The LZ4 block
compressor is an external crate (`lz4_flex::compress`), so the compressed
bytes are a parameter. -/
def write_hierarchy_bytes (s : OutStream) (bytes compressed : List Nat) :
    OutStream :=
  let s1 := stream_write_u8 s 6                 -- BlockType::HierarchyLZ4
  let start := s1.stream_position
  let s2 := stream_write_u64 s1 0               -- dummy section length
  let s3 := stream_write_u64 s2 bytes.length    -- uncompressed length
  let s4 := s3.write_all compressed
  let endPos := s4.stream_position
  let s5 := s4.seek start
  let s6 := stream_write_u64 s5 (endPos - start)
  s6.seek endPos

/-- `write_geometry` (`src/io.rs` lines 267–294). -/
def write_geometry (s : OutStream) (signals : List FstSignalType) : OutStream :=
  let s1 := stream_write_u8 s 3                 -- BlockType::Geometry
  let start := s1.stream_position
  let s2 := stream_write_u64 s1 0               -- dummy section length
  let s3 := stream_write_u64 s2 0               -- dummy uncompressed length
  let s4 := stream_write_u64 s3 signals.length  -- max handle
  let s5 := signals.foldl
    (fun acc sig => acc.write_all (write_variant_u64 sig.to_file_format)) s4
  let endPos := s5.stream_position
  let section_len := endPos - start
  let s6 := stream_write_u64 (s5.seek start) section_len
  let s7 := stream_write_u64 s6 (section_len - 3 * 8)
  s7.seek endPos

/-- `write_value_change_section` (`src/io.rs` lines 481–511). -/
def write_value_change_section (s : OutStream) (start_time end_time : Nat)
    (time_table : List Nat) (time_table_entries : Nat) : OutStream :=
  let s1 := stream_write_u8 s 8                 -- BlockType::VcDataDynamicAlias2
  let start := s1.stream_position
  let s2 := stream_write_u64 s1 0               -- dummy section length
  let s3 := stream_write_u64 s2 start_time
  let s4 := stream_write_u64 s3 end_time
  let s5 := s4.write_all time_table
  let s6 := stream_write_u64 s5 time_table.length
  let s7 := stream_write_u64 s6 time_table.length
  let s8 := stream_write_u64 s7 time_table_entries
  let endPos := s8.stream_position
  let s9 := stream_write_u64 (s8.seek start) (endPos - start)
  s9.seek endPos

/-- Writing with the cursor at the end of the data appends. -/
theorem write_all_at_end (s : OutStream) (bs : List Nat)
    (h : s.pos = s.data.length) :
    s.write_all bs = ⟨s.data ++ bs, s.pos + bs.length⟩ := by
  rw [OutStream.write_all]
  congr 1
  rw [h, List.take_length, List.drop_eq_nil_of_le (by omega), List.append_nil]

/-- Writing with the cursor at an interior position overwrites in place. -/
theorem write_all_overwrite (d1 mid d2 bs : List Nat)
    (h : mid.length = bs.length) :
    OutStream.write_all ⟨d1 ++ mid ++ d2, d1.length⟩ bs
      = ⟨d1 ++ bs ++ d2, d1.length + bs.length⟩ := by
  rw [OutStream.write_all]
  congr 1
  have htake : (d1 ++ mid ++ d2).take d1.length = d1 := by
    rw [List.append_assoc, List.take_left]
  have hdrop : (d1 ++ mid ++ d2).drop (d1.length + bs.length) = d2 := by
    rw [← h, ← List.length_append d1 mid, List.drop_left]
  rw [htake, hdrop]

theorem u64_be_bytes_length (v : Nat) : (u64_be_bytes v).length = 8 := rfl

theorem stream_write_u64_at_end (s : OutStream) (v : Nat)
    (h : s.pos = s.data.length) :
    stream_write_u64 s v = ⟨s.data ++ u64_be_bytes v, s.pos + 8⟩ := by
  rw [stream_write_u64, write_all_at_end s _ h, u64_be_bytes_length]

theorem stream_write_u8_at_end (s : OutStream) (v : Nat)
    (h : s.pos = s.data.length) :
    stream_write_u8 s v = ⟨s.data ++ [v % 256], s.pos + 1⟩ := by
  rw [stream_write_u8, write_all_at_end s _ h]
  rfl

/-- Full shape of an emitted hierarchy block: tag, patched length
`end - start`, uncompressed length, compressed payload; the cursor ends at
the block's end. -/
theorem write_hierarchy_bytes_spec (s : OutStream) (bytes comp : List Nat)
    (h : s.pos = s.data.length) :
    write_hierarchy_bytes s bytes comp
      = ⟨(s.data ++ [6 % 256]) ++ u64_be_bytes (16 + comp.length)
          ++ (u64_be_bytes bytes.length ++ comp),
        s.pos + 1 + 8 + 8 + comp.length⟩ := by
  have h1 : stream_write_u8 s 6 = ⟨s.data ++ [6 % 256], s.pos + 1⟩ :=
    stream_write_u8_at_end s 6 h
  have h2 : OutStream.write_all (⟨s.data ++ [6 % 256], s.pos + 1⟩ : OutStream)
        (u64_be_bytes 0)
      = ⟨(s.data ++ [6 % 256]) ++ u64_be_bytes 0, s.pos + 1 + 8⟩ := by
    rw [write_all_at_end _ _ (by simp [h]), u64_be_bytes_length]
  have h3 : OutStream.write_all
        (⟨(s.data ++ [6 % 256]) ++ u64_be_bytes 0, s.pos + 1 + 8⟩ : OutStream)
        (u64_be_bytes bytes.length)
      = ⟨((s.data ++ [6 % 256]) ++ u64_be_bytes 0) ++ u64_be_bytes bytes.length,
        s.pos + 1 + 8 + 8⟩ := by
    rw [write_all_at_end _ _ (by simp [h, u64_be_bytes]; try omega), u64_be_bytes_length]
  have h4 : OutStream.write_all
        (⟨((s.data ++ [6 % 256]) ++ u64_be_bytes 0) ++ u64_be_bytes bytes.length,
          s.pos + 1 + 8 + 8⟩ : OutStream) comp
      = ⟨(((s.data ++ [6 % 256]) ++ u64_be_bytes 0) ++ u64_be_bytes bytes.length)
          ++ comp,
        s.pos + 1 + 8 + 8 + comp.length⟩ :=
    write_all_at_end _ _ (by simp [h, u64_be_bytes]; try omega)
  have hassoc : (((s.data ++ [6 % 256]) ++ u64_be_bytes 0)
        ++ u64_be_bytes bytes.length) ++ comp
      = (s.data ++ [6 % 256]) ++ u64_be_bytes 0
        ++ (u64_be_bytes bytes.length ++ comp) := by
    simp [List.append_assoc]
  have hd1 : (s.data ++ [6 % 256]).length = s.pos + 1 := by
    simp [h]
  have h6 := write_all_overwrite (s.data ++ [6 % 256]) (u64_be_bytes 0)
      (u64_be_bytes bytes.length ++ comp)
      (u64_be_bytes (s.pos + 1 + 8 + 8 + comp.length - (s.pos + 1)))
      (by rw [u64_be_bytes_length, u64_be_bytes_length])
  rw [hd1, u64_be_bytes_length] at h6
  have harg : s.pos + 1 + 8 + 8 + comp.length - (s.pos + 1) = 16 + comp.length := by
    omega
  rw [harg] at h6
  rw [write_hierarchy_bytes]
  simp only [h1, OutStream.stream_position, h2, h3, h4, OutStream.seek, hassoc, harg,
    stream_write_u64, h6]
/-- The geometry body: one `variant_u64` width per signal. -/
def geomBytes (signals : List FstSignalType) : List Nat :=
  (signals.map fun sig => write_variant_u64 sig.to_file_format).flatten

/-- The geometry emission loop appends the widths when the cursor starts at
the end. -/
theorem foldl_geom_at_end (signals : List FstSignalType) :
    ∀ st : OutStream, st.pos = st.data.length →
      signals.foldl
          (fun acc sig => acc.write_all (write_variant_u64 sig.to_file_format)) st
        = ⟨st.data ++ geomBytes signals, st.pos + (geomBytes signals).length⟩ := by
  induction signals with
  | nil =>
    intro st hst
    simp only [List.foldl_nil, geomBytes, List.map_nil, List.flatten_nil,
      List.append_nil, List.length_nil, Nat.add_zero]
  | cons sig rest ih =>
    intro st hst
    rw [List.foldl_cons, write_all_at_end st _ hst,
      ih _ (by simp [hst])]
    have hg : geomBytes (sig :: rest)
        = write_variant_u64 sig.to_file_format ++ geomBytes rest := by
      rw [geomBytes, List.map_cons, List.flatten_cons, geomBytes]
    rw [hg]
    congr 1
    · rw [List.append_assoc]
    · simp
      try omega

/-- Full shape of an emitted geometry block: tag, patched section length
`end - start`, patched uncompressed content length, max handle, widths; the
cursor ends at the block's end. -/
theorem write_geometry_spec (s : OutStream) (signals : List FstSignalType)
    (h : s.pos = s.data.length) :
    write_geometry s signals
      = ⟨((s.data ++ [3 % 256]) ++ u64_be_bytes (24 + (geomBytes signals).length))
            ++ u64_be_bytes (24 + (geomBytes signals).length - 24)
            ++ (u64_be_bytes signals.length ++ geomBytes signals),
        s.pos + 1 + 8 + 8 + 8 + (geomBytes signals).length⟩ := by
  have h1 : stream_write_u8 s 3 = ⟨s.data ++ [3 % 256], s.pos + 1⟩ :=
    stream_write_u8_at_end s 3 h
  have h2 : OutStream.write_all (⟨s.data ++ [3 % 256], s.pos + 1⟩ : OutStream)
        (u64_be_bytes 0)
      = ⟨(s.data ++ [3 % 256]) ++ u64_be_bytes 0, s.pos + 1 + 8⟩ := by
    rw [write_all_at_end _ _ (by simp [h]), u64_be_bytes_length]
  have h3 : OutStream.write_all
        (⟨(s.data ++ [3 % 256]) ++ u64_be_bytes 0, s.pos + 1 + 8⟩ : OutStream)
        (u64_be_bytes 0)
      = ⟨((s.data ++ [3 % 256]) ++ u64_be_bytes 0) ++ u64_be_bytes 0,
        s.pos + 1 + 8 + 8⟩ := by
    rw [write_all_at_end _ _ (by simp [h, u64_be_bytes]; try omega), u64_be_bytes_length]
  have h4 : OutStream.write_all
        (⟨((s.data ++ [3 % 256]) ++ u64_be_bytes 0) ++ u64_be_bytes 0,
          s.pos + 1 + 8 + 8⟩ : OutStream)
        (u64_be_bytes signals.length)
      = ⟨(((s.data ++ [3 % 256]) ++ u64_be_bytes 0) ++ u64_be_bytes 0)
            ++ u64_be_bytes signals.length,
        s.pos + 1 + 8 + 8 + 8⟩ := by
    rw [write_all_at_end _ _ (by simp [h, u64_be_bytes]; try omega), u64_be_bytes_length]
  have h5 := foldl_geom_at_end signals
    ⟨(((s.data ++ [3 % 256]) ++ u64_be_bytes 0) ++ u64_be_bytes 0)
        ++ u64_be_bytes signals.length,
      s.pos + 1 + 8 + 8 + 8⟩
    (by simp [h, u64_be_bytes]; try omega)
  have hassoc1 : ((((s.data ++ [3 % 256]) ++ u64_be_bytes 0) ++ u64_be_bytes 0)
        ++ u64_be_bytes signals.length) ++ geomBytes signals
      = (s.data ++ [3 % 256]) ++ u64_be_bytes 0
        ++ (u64_be_bytes 0 ++ (u64_be_bytes signals.length ++ geomBytes signals)) := by
    simp [List.append_assoc]
  have hd1 : (s.data ++ [3 % 256]).length = s.pos + 1 := by
    simp [h]
  have harg : s.pos + 1 + 8 + 8 + 8 + (geomBytes signals).length - (s.pos + 1)
      = 24 + (geomBytes signals).length := by
    omega
  have h6 := write_all_overwrite (s.data ++ [3 % 256]) (u64_be_bytes 0)
      (u64_be_bytes 0 ++ (u64_be_bytes signals.length ++ geomBytes signals))
      (u64_be_bytes (24 + (geomBytes signals).length))
      (by rw [u64_be_bytes_length, u64_be_bytes_length])
  rw [hd1, u64_be_bytes_length] at h6
  have hassoc2 : (s.data ++ [3 % 256]) ++ u64_be_bytes (24 + (geomBytes signals).length)
        ++ (u64_be_bytes 0 ++ (u64_be_bytes signals.length ++ geomBytes signals))
      = ((s.data ++ [3 % 256]) ++ u64_be_bytes (24 + (geomBytes signals).length))
        ++ u64_be_bytes 0 ++ (u64_be_bytes signals.length ++ geomBytes signals) := by
    simp [List.append_assoc]
  have hd2 : ((s.data ++ [3 % 256])
      ++ u64_be_bytes (24 + (geomBytes signals).length)).length = s.pos + 1 + 8 := by
    simp [h, u64_be_bytes]
  have h7 := write_all_overwrite
      ((s.data ++ [3 % 256]) ++ u64_be_bytes (24 + (geomBytes signals).length))
      (u64_be_bytes 0)
      (u64_be_bytes signals.length ++ geomBytes signals)
      (u64_be_bytes (24 + (geomBytes signals).length - 24))
      (by rw [u64_be_bytes_length, u64_be_bytes_length])
  rw [hd2, u64_be_bytes_length] at h7
  rw [write_geometry]
  simp only [h1, OutStream.stream_position, stream_write_u64, h2, h3, h4, h5,
    OutStream.seek, hassoc1, harg, h6, hassoc2, h7]

/-- Full shape of an emitted value-change section: tag, patched section
length `end - start`, start/end time, time table, its (uncompressed =
compressed) length twice, entry count; the cursor ends at the section's
end. -/
theorem write_value_change_section_spec (s : OutStream)
    (start_time end_time : Nat) (tt : List Nat) (entries : Nat)
    (h : s.pos = s.data.length) :
    write_value_change_section s start_time end_time tt entries
      = ⟨(s.data ++ [8 % 256]) ++ u64_be_bytes (48 + tt.length)
            ++ (u64_be_bytes start_time ++ (u64_be_bytes end_time
              ++ (tt ++ (u64_be_bytes tt.length ++ (u64_be_bytes tt.length
                ++ u64_be_bytes entries))))),
        s.pos + 1 + 8 + 8 + 8 + tt.length + 8 + 8 + 8⟩ := by
  have h1 : stream_write_u8 s 8 = ⟨s.data ++ [8 % 256], s.pos + 1⟩ :=
    stream_write_u8_at_end s 8 h
  have h2 : OutStream.write_all (⟨s.data ++ [8 % 256], s.pos + 1⟩ : OutStream)
        (u64_be_bytes 0)
      = ⟨(s.data ++ [8 % 256]) ++ u64_be_bytes 0, s.pos + 1 + 8⟩ := by
    rw [write_all_at_end _ _ (by simp [h]), u64_be_bytes_length]
  have h3 : OutStream.write_all
        (⟨(s.data ++ [8 % 256]) ++ u64_be_bytes 0, s.pos + 1 + 8⟩ : OutStream)
        (u64_be_bytes start_time)
      = ⟨((s.data ++ [8 % 256]) ++ u64_be_bytes 0) ++ u64_be_bytes start_time,
        s.pos + 1 + 8 + 8⟩ := by
    rw [write_all_at_end _ _ (by simp [h, u64_be_bytes]; try omega), u64_be_bytes_length]
  have h4 : OutStream.write_all
        (⟨((s.data ++ [8 % 256]) ++ u64_be_bytes 0) ++ u64_be_bytes start_time,
          s.pos + 1 + 8 + 8⟩ : OutStream)
        (u64_be_bytes end_time)
      = ⟨(((s.data ++ [8 % 256]) ++ u64_be_bytes 0) ++ u64_be_bytes start_time)
          ++ u64_be_bytes end_time,
        s.pos + 1 + 8 + 8 + 8⟩ := by
    rw [write_all_at_end _ _ (by simp [h, u64_be_bytes]; try omega), u64_be_bytes_length]
  have h5 : OutStream.write_all
        (⟨(((s.data ++ [8 % 256]) ++ u64_be_bytes 0) ++ u64_be_bytes start_time)
            ++ u64_be_bytes end_time, s.pos + 1 + 8 + 8 + 8⟩ : OutStream) tt
      = ⟨((((s.data ++ [8 % 256]) ++ u64_be_bytes 0) ++ u64_be_bytes start_time)
            ++ u64_be_bytes end_time) ++ tt,
        s.pos + 1 + 8 + 8 + 8 + tt.length⟩ :=
    write_all_at_end _ _ (by simp [h, u64_be_bytes]; try omega)
  have h6 : OutStream.write_all
        (⟨((((s.data ++ [8 % 256]) ++ u64_be_bytes 0) ++ u64_be_bytes start_time)
            ++ u64_be_bytes end_time) ++ tt,
          s.pos + 1 + 8 + 8 + 8 + tt.length⟩ : OutStream)
        (u64_be_bytes tt.length)
      = ⟨(((((s.data ++ [8 % 256]) ++ u64_be_bytes 0) ++ u64_be_bytes start_time)
            ++ u64_be_bytes end_time) ++ tt) ++ u64_be_bytes tt.length,
        s.pos + 1 + 8 + 8 + 8 + tt.length + 8⟩ := by
    rw [write_all_at_end _ _ (by simp [h, u64_be_bytes]; try omega), u64_be_bytes_length]
  have h7 : OutStream.write_all
        (⟨(((((s.data ++ [8 % 256]) ++ u64_be_bytes 0) ++ u64_be_bytes start_time)
            ++ u64_be_bytes end_time) ++ tt) ++ u64_be_bytes tt.length,
          s.pos + 1 + 8 + 8 + 8 + tt.length + 8⟩ : OutStream)
        (u64_be_bytes tt.length)
      = ⟨((((((s.data ++ [8 % 256]) ++ u64_be_bytes 0) ++ u64_be_bytes start_time)
            ++ u64_be_bytes end_time) ++ tt) ++ u64_be_bytes tt.length)
          ++ u64_be_bytes tt.length,
        s.pos + 1 + 8 + 8 + 8 + tt.length + 8 + 8⟩ := by
    rw [write_all_at_end _ _ (by simp [h, u64_be_bytes]; try omega), u64_be_bytes_length]
  have h8 : OutStream.write_all
        (⟨((((((s.data ++ [8 % 256]) ++ u64_be_bytes 0) ++ u64_be_bytes start_time)
            ++ u64_be_bytes end_time) ++ tt) ++ u64_be_bytes tt.length)
          ++ u64_be_bytes tt.length,
          s.pos + 1 + 8 + 8 + 8 + tt.length + 8 + 8⟩ : OutStream)
        (u64_be_bytes entries)
      = ⟨(((((((s.data ++ [8 % 256]) ++ u64_be_bytes 0) ++ u64_be_bytes start_time)
            ++ u64_be_bytes end_time) ++ tt) ++ u64_be_bytes tt.length)
          ++ u64_be_bytes tt.length) ++ u64_be_bytes entries,
        s.pos + 1 + 8 + 8 + 8 + tt.length + 8 + 8 + 8⟩ := by
    rw [write_all_at_end _ _ (by simp [h, u64_be_bytes]; try omega), u64_be_bytes_length]
  have hassoc : (((((((s.data ++ [8 % 256]) ++ u64_be_bytes 0)
          ++ u64_be_bytes start_time) ++ u64_be_bytes end_time) ++ tt)
          ++ u64_be_bytes tt.length) ++ u64_be_bytes tt.length)
          ++ u64_be_bytes entries
      = (s.data ++ [8 % 256]) ++ u64_be_bytes 0
        ++ (u64_be_bytes start_time ++ (u64_be_bytes end_time
          ++ (tt ++ (u64_be_bytes tt.length ++ (u64_be_bytes tt.length
            ++ u64_be_bytes entries))))) := by
    simp [List.append_assoc]
  have hd1 : (s.data ++ [8 % 256]).length = s.pos + 1 := by
    simp [h]
  have harg : s.pos + 1 + 8 + 8 + 8 + tt.length + 8 + 8 + 8 - (s.pos + 1)
      = 48 + tt.length := by
    omega
  have h9 := write_all_overwrite (s.data ++ [8 % 256]) (u64_be_bytes 0)
      (u64_be_bytes start_time ++ (u64_be_bytes end_time
        ++ (tt ++ (u64_be_bytes tt.length ++ (u64_be_bytes tt.length
          ++ u64_be_bytes entries)))))
      (u64_be_bytes (48 + tt.length))
      (by rw [u64_be_bytes_length, u64_be_bytes_length])
  rw [hd1, u64_be_bytes_length] at h9
  rw [write_value_change_section]
  simp only [h1, OutStream.stream_position, stream_write_u64, h2, h3, h4, h5, h6,
    h7, h8, OutStream.seek, hassoc, harg, h9]

/-- Reading eight bytes right after a prefix of known length. -/
theorem slice_after (A L_bytes rest : List Nat) (p : Nat)
    (hp : A.length = p) (h8 : L_bytes.length = 8) :
    listSlice ((A ++ L_bytes) ++ rest) p 8 = L_bytes := by
  rw [listSlice, ← hp, List.append_assoc, List.drop_left, ← h8, List.take_left]

/-- **C9.** For each successful block-emitting operation — hierarchy block,
geometry block, value-change section — the u64 length field right after the
block's tag byte ends up holding exactly `end - start`, where `start` is the
stream position of the length field and `end` the position on return, and
the stream is left positioned at `end` (the seek-back patch restores the
cursor). -/
theorem block_length_patched (s1 s2 s3 : OutStream) (bytes comp : List Nat)
    (signals : List FstSignalType) (st et : Nat) (tt : List Nat) (entries : Nat)
    (h1 : s1.pos = s1.data.length) (h2 : s2.pos = s2.data.length)
    (h3 : s3.pos = s3.data.length) :
    ((write_hierarchy_bytes s1 bytes comp).pos
        = s1.pos + 1 + 8 + 8 + comp.length
      ∧ listSlice (write_hierarchy_bytes s1 bytes comp).data (s1.pos + 1) 8
        = u64_be_bytes ((write_hierarchy_bytes s1 bytes comp).pos - (s1.pos + 1)))
    ∧ ((write_geometry s2 signals).pos
        = s2.pos + 1 + 8 + 8 + 8 + (geomBytes signals).length
      ∧ listSlice (write_geometry s2 signals).data (s2.pos + 1) 8
        = u64_be_bytes ((write_geometry s2 signals).pos - (s2.pos + 1)))
    ∧ ((write_value_change_section s3 st et tt entries).pos
        = s3.pos + 1 + 8 + 8 + 8 + tt.length + 8 + 8 + 8
      ∧ listSlice (write_value_change_section s3 st et tt entries).data
          (s3.pos + 1) 8
        = u64_be_bytes
          ((write_value_change_section s3 st et tt entries).pos - (s3.pos + 1))) := by
  refine ⟨⟨?_, ?_⟩, ⟨?_, ?_⟩, ⟨?_, ?_⟩⟩
  · rw [write_hierarchy_bytes_spec s1 bytes comp h1]
  · rw [write_hierarchy_bytes_spec s1 bytes comp h1]
    have hs := slice_after (s1.data ++ [6 % 256])
      (u64_be_bytes (16 + comp.length)) (u64_be_bytes bytes.length ++ comp)
      (s1.pos + 1) (by simp [h1]) rfl
    simp only []
    rw [hs]
    congr 1
    omega
  · rw [write_geometry_spec s2 signals h2]
  · rw [write_geometry_spec s2 signals h2]
    have hs := slice_after (s2.data ++ [3 % 256])
      (u64_be_bytes (24 + (geomBytes signals).length))
      (u64_be_bytes (24 + (geomBytes signals).length - 24)
        ++ (u64_be_bytes signals.length ++ geomBytes signals))
      (s2.pos + 1) (by simp [h2]) rfl
    simp only []
    rw [← List.append_assoc] at hs
    rw [hs]
    congr 1
    omega
  · rw [write_value_change_section_spec s3 st et tt entries h3]
  · rw [write_value_change_section_spec s3 st et tt entries h3]
    have hs := slice_after (s3.data ++ [8 % 256])
      (u64_be_bytes (48 + tt.length))
      (u64_be_bytes st ++ (u64_be_bytes et
        ++ (tt ++ (u64_be_bytes tt.length ++ (u64_be_bytes tt.length
          ++ u64_be_bytes entries)))))
      (s3.pos + 1) (by simp [h3]) rfl
    simp only []
    rw [hs]
    congr 1
    omega

/-- Witness for **C9** on an empty stream with small concrete inputs. -/
theorem block_length_patched_witness :
    ((write_hierarchy_bytes ⟨[], 0⟩ [1, 2] [3]).pos = 0 + 1 + 8 + 8 + [3].length
      ∧ listSlice (write_hierarchy_bytes ⟨[], 0⟩ [1, 2] [3]).data (0 + 1) 8
        = u64_be_bytes ((write_hierarchy_bytes ⟨[], 0⟩ [1, 2] [3]).pos - (0 + 1)))
    ∧ ((write_geometry ⟨[], 0⟩ [FstSignalType.bitVec 2]).pos
        = 0 + 1 + 8 + 8 + 8 + (geomBytes [FstSignalType.bitVec 2]).length
      ∧ listSlice (write_geometry ⟨[], 0⟩ [FstSignalType.bitVec 2]).data (0 + 1) 8
        = u64_be_bytes
          ((write_geometry ⟨[], 0⟩ [FstSignalType.bitVec 2]).pos - (0 + 1)))
    ∧ ((write_value_change_section ⟨[], 0⟩ 4 9 [5] 1).pos
        = 0 + 1 + 8 + 8 + 8 + [5].length + 8 + 8 + 8
      ∧ listSlice (write_value_change_section ⟨[], 0⟩ 4 9 [5] 1).data (0 + 1) 8
        = u64_be_bytes ((write_value_change_section ⟨[], 0⟩ 4 9 [5] 1).pos - (0 + 1))) :=
  block_length_patched ⟨[], 0⟩ ⟨[], 0⟩ ⟨[], 0⟩ [1, 2] [3]
    [FstSignalType.bitVec 2] 4 9 [5] 1 rfl rfl rfl
